import Mathlib

set_option autoImplicit false

/-!
Verification of the duckstation request/response substrate (rcheevos rAPI layer)
and the post-processing shader key/value line parser.

The rAPI layer is declared in `src/dep/rcheevos/src/rapi/rc_api_common.h`; its
implementation file is not part of the sources, so those functions are modelled
from the specification document.  `PostProcessing::Shader::ParseKeyValue` is
modelled directly from `src/src/util/postprocessing_shader.cpp`.
-/

namespace PostProcessing

/-- Model of C `std::isspace` over the standard execution character set:
space, tab, newline, vertical tab, form feed, carriage return. -/
def isspace (c : Char) : Bool :=
  c = ' ' || c = '\t' || c = '\n' || c = Char.ofNat 11 || c = Char.ofNat 12 || c = '\r'

/-- Index-advancing loop `while (i < line.size() && p(line[i])) i++;` as used by
`ParseKeyValue` for `key_start`, `key_end` and `value_start`. -/
def advanceWhile (p : Char → Bool) (line : List Char) (i : Nat) : Nat :=
  if h : i < line.length then
    if p (line.get ⟨i, h⟩) then advanceWhile p line (i + 1) else i
  else i
termination_by line.length - i

/-- Index-retreating loop `while (j > lo && p(line[j - 1])) j--;` as used by
`ParseKeyValue` for `value_end`. -/
def retreatWhile (p : Char → Bool) (line : List Char) (lo : Nat) : Nat → Nat
  | 0 => 0
  | j + 1 =>
    if j + 1 ≤ lo then j + 1
    else
      if h : j < line.length then
        if p (line.get ⟨j, h⟩) then retreatWhile p line lo j else j + 1
      else j + 1

/-- Characters that may appear in a key: anything that is neither whitespace
nor `=` (the negation of the key loop's exit condition). -/
def keyChar (c : Char) : Bool := !isspace c && c ≠ '='

/-- Model of `PostProcessing::Shader::ParseKeyValue`
(src/src/util/postprocessing_shader.cpp lines 16-49).  The C++ function writes
through `key`/`value` out-pointers only on full success; the model threads the
previous contents of the out-parameters and returns them unchanged on every
early-return path. -/
def ParseKeyValue (line : List Char) (key value : List Char) : List Char × List Char :=
  let key_start := advanceWhile isspace line 0
  let key_end := advanceWhile keyChar line key_start
  if key_start = key_end ∨ key_end = line.length then (key, value)
  else
    let vs0 := advanceWhile isspace line key_end
    if vs0 = line.length ∨ line.get? vs0 ≠ some '=' then (key, value)
    else
      let value_start := advanceWhile isspace line (vs0 + 1)
      let value_end := retreatWhile isspace line value_start line.length
      if value_start = value_end then (key, value)
      else
        ((line.drop key_start).take (key_end - key_start),
         (line.drop value_start).take (value_end - value_start))

/-- Drop trailing whitespace. -/
def trimEnd (l : List Char) : List Char := (l.reverse.dropWhile isspace).reverse

/-- Trim whitespace from both ends. -/
def trimBoth (l : List Char) : List Char := trimEnd (l.dropWhile isspace)

/-- Modelled from the claim's description of `ParseKeyValue` (a reference
description, to be compared with the code model): the key is the line's first
token (non-whitespace, non-`=` characters after leading whitespace), the value
is the text after the first `=` with surrounding whitespace trimmed, and the
parse yields nothing when the key is empty, the key extends to the end of the
line, the character after the key (skipping whitespace) is not `=`, or the
value is empty after trimming. -/
def parseKeyValueSpec (line : List Char) : Option (List Char × List Char) :=
  let rest := line.dropWhile isspace
  let key := rest.takeWhile keyChar
  let afterKey := rest.dropWhile keyChar
  if key = [] ∨ afterKey = [] then none
  else if (afterKey.dropWhile isspace).head? ≠ some '=' then none
  else
    let v := trimBoth ((line.dropWhile (fun c => c ≠ '=')).drop 1)
    if v = [] then none else some (key, v)

end PostProcessing

namespace RcApi

/-! ### JSON scanner

Modelled from the spec: the implementation file of `rc_api_common.h` is not
among the sources, so the single-pass, allocation-free JSON scanner
(value skipping with a depth counter, escape-aware string skipping, bare
literals delimited by comma/`}`/`]`/whitespace, lazy object-field iteration,
and raw exact-length field-name matching) is modelled from spec section 4.3.
The scanner works on the slice `[json, end)` of the response buffer, rendered
here as a `List Char`; the end pointer is the end of the list. -/

/-- JSON whitespace, as skipped between tokens by the scanner. -/
def isWS (c : Char) : Bool :=
  c = ' ' || c = '\t' || c = '\n' || c = '\r'

/-- Delimiters that terminate a bare literal (number, `true`, `false`,
`null`): comma, close brace, close bracket. -/
def isDelim (c : Char) : Bool :=
  c = ',' || c = '}' || c = ']'

/-- Advance the cursor past JSON whitespace. -/
def skipWS : List Char → List Char
  | [] => []
  | c :: cs => if isWS c then skipWS cs else c :: cs

/-- Scan a quoted string body; the cursor is just after the opening quote.
Backslash-escaped characters are passed over without interpretation.  Returns
the raw text between the quotes together with the remainder after the closing
quote, or `none` when the string is unterminated before the end pointer. -/
def skipString : List Char → Option (List Char × List Char)
  | [] => none
  | c :: cs =>
    if c = '"' then some ([], cs)
    else if c = '\\' then
      match cs with
      | [] => none
      | d :: cs' => (skipString cs').map fun p => (c :: d :: p.1, p.2)
    else (skipString cs).map fun p => (c :: p.1, p.2)

/-- State of the bracket-skipping loop: normal scanning, inside a quoted
string, or immediately after a backslash inside a quoted string. -/
inductive BrMode where
  | norm
  | instr
  | esc
deriving DecidableEq

/-- Depth-counter loop that skips a nested object/array value; the cursor is
just after the opening bracket and `d` is the current bracket depth (at least
one).  Quoted strings are passed over with escape awareness.  Returns the
consumed text (including the closing bracket) and the remainder, or `none`
when the brackets are unbalanced before the end pointer. -/
def skipBr : List Char → Nat → BrMode → Option (List Char × List Char)
  | [], _, _ => none
  | c :: cs, d, m =>
    match m with
    | BrMode.esc => (skipBr cs d BrMode.instr).map fun p => (c :: p.1, p.2)
    | BrMode.instr =>
      if c = '\\' then (skipBr cs d BrMode.esc).map fun p => (c :: p.1, p.2)
      else if c = '"' then (skipBr cs d BrMode.norm).map fun p => (c :: p.1, p.2)
      else (skipBr cs d BrMode.instr).map fun p => (c :: p.1, p.2)
    | BrMode.norm =>
      if c = '"' then (skipBr cs d BrMode.instr).map fun p => (c :: p.1, p.2)
      else if c = '{' ∨ c = '[' then (skipBr cs (d + 1) BrMode.norm).map fun p => (c :: p.1, p.2)
      else if c = '}' ∨ c = ']' then
        if d ≤ 1 then some ([c], cs)
        else (skipBr cs (d - 1) BrMode.norm).map fun p => (c :: p.1, p.2)
      else (skipBr cs d BrMode.norm).map fun p => (c :: p.1, p.2)

/-- A cursor position at which a value may legitimately end: the end pointer
itself, or a delimiter character. -/
def delimHead : List Char → Bool
  | [] => true
  | c :: _ => isDelim c

/-- Consume a bare literal: characters up to (excluding) the first delimiter
or whitespace, or up to the end pointer. -/
def skipBare : List Char → List Char × List Char
  | [] => ([], [])
  | c :: cs =>
    if isDelim c || isWS c then ([], c :: cs)
    else
      let p := skipBare cs
      (c :: p.1, p.2)

/-- Prepend already-consumed text to a scanner result. -/
def mapPre (l : List Char) (o : Option (List Char × List Char)) :
    Option (List Char × List Char) :=
  o.map fun p => (l ++ p.1, p.2)

/-- Skip one JSON value of unknown type, positioned at its first character:
a quoted string, a bracketed object/array (via the depth counter), or a bare
literal.  Returns the value's raw span and the remainder. -/
def skipValue (cs : List Char) : Option (List Char × List Char) :=
  match cs with
  | '"' :: rest => (skipString rest).map fun p => ('"' :: p.1 ++ ['"'], p.2)
  | '{' :: rest => (skipBr rest 1 BrMode.norm).map fun p => ('{' :: p.1, p.2)
  | '[' :: rest => (skipBr rest 1 BrMode.norm).map fun p => ('[' :: p.1, p.2)
  | _ => some (skipBare cs)

/-- Consume the pair separator following a value, when present. -/
def nextFieldComma : List Char → List Char
  | ',' :: r => r
  | r => r

/-- Continue the field iteration once the value span is located: package the
field and consume a trailing comma. -/
def nextFieldValue (name : List Char) :
    Option (List Char × List Char) → Option (Option (List Char × List Char × List Char))
  | none => none
  | some (v, r3) => some (some (name, v, nextFieldComma (skipWS r3)))

/-- Continue the field iteration after the name: expect a colon, then locate
the value span. -/
def nextFieldColon (name : List Char) :
    List Char → Option (Option (List Char × List Char × List Char))
  | ':' :: r2 => nextFieldValue name (skipValue (skipWS r2))
  | _ => none

/-- Continue the field iteration after the name's opening quote. -/
def nextFieldName :
    Option (List Char × List Char) → Option (Option (List Char × List Char × List Char))
  | none => none
  | some (name, r1) => nextFieldColon name (skipWS r1)

/-- Dispatch on the first significant character of the iterator: the
enclosing close bracket ends the iteration, a quote starts a field name. -/
def nextFieldAt : List Char → Option (Option (List Char × List Char × List Char))
  | '}' :: _ => some none
  | ']' :: _ => some none
  | '"' :: r0 => nextFieldName (skipString r0)
  | _ => none

/-- Model of `rc_json_get_next_object_field`: advance the iterator one
`"name":value` pair.  Returns `some none` when the enclosing `}`/`]` is
reached, `some (some (name, value, rest))` for a located pair (with a
trailing comma consumed), and `none` on malformed input. -/
def nextField (cs : List Char) : Option (Option (List Char × List Char × List Char)) :=
  nextFieldAt (skipWS cs)

/-- Fuelled loop of `nextField` used for field location: scan the
comma-separated pairs of an object body at the current nesting level until the
raw key text equals the target name (case-sensitive, exact length) or the
object closes.  `some (some v)` is a located value span, `some none` is
"object closed, not found", `none` is malformed input. -/
def findFieldAux : Nat → List Char → List Char → Option (Option (List Char))
  | 0, _, _ => none
  | fuel + 1, cs, name =>
    match nextField cs with
    | none => none
    | some none => some none
    | some (some (n, v, rest)) =>
      if n = name then some (some v) else findFieldAux fuel rest name

/-- Model of the spec's field-location operation: locate the named field among
the `"name":value` pairs of an object body (the text after the opening `{`).
One pair is consumed per fuel unit, and a pair costs at least one character,
so `cs.length + 1` fuel never runs out. -/
def findField (cs name : List Char) : Option (Option (List Char)) :=
  findFieldAux (cs.length + 1) cs name

/-- Fuelled loop of the one-pass field-table extraction: each located pair is
matched against every registered descriptor name and fills the matching
descriptors' spans, regardless of key order. -/
def fillFieldsAux (fields : List (List Char × Option (List Char))) :
    Nat → List Char → Option (List (List Char × Option (List Char)))
  | 0, _ => none
  | fuel + 1, cs =>
    match nextField cs with
    | none => none
    | some none => some fields
    | some (some (n, v, rest)) =>
      fillFieldsAux (fields.map fun f => if f.1 = n then (f.1, some v) else f) fuel rest

/-- Model of the spec's object field-table extraction over an object body. -/
def fillFields (fields : List (List Char × Option (List Char))) (cs : List Char) :
    Option (List (List Char × Option (List Char))) :=
  fillFieldsAux fields (cs.length + 1) cs

/-! ### Reference JSON values

A recursive representation of JSON values, used as the reference model
against which the single-pass scanner is verified: an object body is rendered
from a list of `(key, value)` pairs and the scanner is proved to locate
exactly the top-level keys. -/

mutual

/-- Reference JSON value: a bare literal (number, `true`, `false`, `null`),
a quoted string (raw content, escapes included), an object, or an array. -/
inductive JVal where
  | lit : List Char → JVal
  | str : List Char → JVal
  | obj : JMembers → JVal
  | arr : JElems → JVal

/-- Members of a reference JSON object, in order. -/
inductive JMembers where
  | nil : JMembers
  | cons : List Char → JVal → JMembers → JMembers

/-- Elements of a reference JSON array, in order. -/
inductive JElems where
  | nil : JElems
  | cons : JVal → JElems → JElems

end

mutual

/-- Render a reference JSON value as raw JSON text. -/
def renderV : JVal → List Char
  | JVal.lit l => l
  | JVal.str s => '"' :: s ++ ['"']
  | JVal.obj ms => '{' :: renderM ms ++ ['}']
  | JVal.arr es => '[' :: renderE es ++ [']']

/-- Render an object body (the text between the braces). -/
def renderM : JMembers → List Char
  | JMembers.nil => []
  | JMembers.cons k v ms => ('"' :: k ++ '"' :: ':' :: renderV v) ++ renderTailM ms

/-- Render the remaining members of an object body, each preceded by a comma. -/
def renderTailM : JMembers → List Char
  | JMembers.nil => []
  | JMembers.cons k v ms => ',' :: (('"' :: k ++ '"' :: ':' :: renderV v) ++ renderTailM ms)

/-- Render an array body (the text between the brackets). -/
def renderE : JElems → List Char
  | JElems.nil => []
  | JElems.cons v es => renderV v ++ renderTailE es

/-- Render the remaining elements of an array body, each preceded by a comma. -/
def renderTailE : JElems → List Char
  | JElems.nil => []
  | JElems.cons v es => ',' :: renderV v ++ renderTailE es

end

/-- Characters allowed in a bare literal: anything except delimiters,
whitespace, quotes and brackets. -/
def bareOK (c : Char) : Bool :=
  !(c = ',' || c = '}' || c = ']' || c = '"' || c = '{' || c = '[' || isWS c)

/-- Characters allowed in a raw key: anything except a quote or a backslash,
so that the raw key text is the key itself. -/
def keyOK (c : Char) : Bool :=
  !(c = '"' || c = '\\')

/-- Raw string content wellformedness: a backslash is always followed by
another character and an unescaped quote never occurs, so that the closing
quote of the rendering is the first unescaped quote. -/
def rawStrOK : List Char → Bool
  | [] => true
  | c :: cs =>
    if c = '"' then false
    else if c = '\\' then
      match cs with
      | [] => false
      | _ :: cs' => rawStrOK cs'
    else rawStrOK cs

mutual

/-- Wellformedness of a reference JSON value. -/
def wfV : JVal → Bool
  | JVal.lit l => !l.isEmpty && l.all bareOK
  | JVal.str s => rawStrOK s
  | JVal.obj ms => wfM ms
  | JVal.arr es => wfE es

/-- Wellformedness of object members: every key is raw-representable and every
value is wellformed. -/
def wfM : JMembers → Bool
  | JMembers.nil => true
  | JMembers.cons k v ms => k.all keyOK && wfV v && wfM ms

/-- Wellformedness of array elements. -/
def wfE : JElems → Bool
  | JElems.nil => true
  | JElems.cons v es => wfV v && wfE es

end

/-- First value bound to `name` among the top-level members, by raw
case-sensitive exact-length comparison. -/
def lookupMem (name : List Char) : JMembers → Option JVal
  | JMembers.nil => none
  | JMembers.cons k v ms => if k = name then some v else lookupMem name ms

/-- Number of top-level members. -/
def lenM : JMembers → Nat
  | JMembers.nil => 0
  | JMembers.cons _ _ ms => lenM ms + 1

/-- Concrete object `"a":‹obj with nested "id":1›, "id":2` used to exercise
nested-field isolation on a closed input. -/
def c2Members : JMembers :=
  JMembers.cons ("a".data)
    (JVal.obj (JMembers.cons ("id".data) (JVal.lit ("1".data)) JMembers.nil))
    (JMembers.cons ("id".data) (JVal.lit ("2".data)) JMembers.nil)

/-! ### Response envelope decoder

Modelled from the spec, section 4.5: `rc_json_parse_server_response` first
checks HTTP status validity, then extracts the envelope's success/failure
discriminator and optional error-message field, and only on a successful
discriminator delegates the object body to the caller-supplied
endpoint-specific field table. -/

/-- Decode outcome, following the spec's error taxonomy: transport/status
failure is distinct from a discriminated (semantic) server failure, which is
distinct from a schema failure. -/
inductive DecodeStatus where
  | ok
  | transportFailure
  | semanticFailure
  | schemaFailure
deriving DecidableEq

/-- Raw response handed in by the transport: body plus HTTP status code. -/
structure rc_api_server_response_t where
  body : List Char
  http_status_code : Int
deriving DecidableEq

/-- Common response envelope: a succeeded flag and the optional error
message. -/
structure rc_api_response_t where
  succeeded : Int
  error_message : Option (List Char)
deriving DecidableEq

/-- Endpoint field table: descriptor names paired with their located raw
value spans (`none` until located). -/
abbrev FieldTable := List (List Char × Option (List Char))

/-- Raw content of a located quoted-string value span: the span must start
with a quote and end with the matching unescaped closing quote. -/
def stringSpanContent (v : List Char) : Option (List Char) :=
  match v with
  | '"' :: rest =>
    match skipString rest with
    | some (s, []) => some s
    | _ => none
  | _ => none

/-- Hexadecimal digit value, upper or lower case. -/
def hexDigitVal (c : Char) : Option Nat :=
  if '0' ≤ c ∧ c ≤ '9' then some (c.toNat - 48)
  else if 'a' ≤ c ∧ c ≤ 'f' then some (c.toNat - 87)
  else if 'A' ≤ c ∧ c ≤ 'F' then some (c.toNat - 55)
  else none

/-- Decode the JSON escape sequences of a raw string content span. -/
def jsonUnescape : List Char → Option (List Char)
  | [] => some []
  | '\\' :: rest =>
    match rest with
    | '"' :: cs => (jsonUnescape cs).map fun l => '"' :: l
    | '\\' :: cs => (jsonUnescape cs).map fun l => '\\' :: l
    | '/' :: cs => (jsonUnescape cs).map fun l => '/' :: l
    | 'n' :: cs => (jsonUnescape cs).map fun l => '\n' :: l
    | 't' :: cs => (jsonUnescape cs).map fun l => '\t' :: l
    | 'r' :: cs => (jsonUnescape cs).map fun l => '\r' :: l
    | 'b' :: cs => (jsonUnescape cs).map fun l => Char.ofNat 8 :: l
    | 'f' :: cs => (jsonUnescape cs).map fun l => Char.ofNat 12 :: l
    | 'u' :: a :: b :: c :: d :: cs =>
      match hexDigitVal a, hexDigitVal b, hexDigitVal c, hexDigitVal d with
      | some ha, some hb, some hc, some hd =>
        (jsonUnescape cs).map fun l => Char.ofNat (((ha * 16 + hb) * 16 + hc) * 16 + hd) :: l
      | _, _, _, _ => none
    | _ => none
  | c :: cs => (jsonUnescape cs).map fun l => c :: l

/-- Escape-decoded content of a located quoted-string value span. -/
def stringSpanDecoded (v : List Char) : Option (List Char) :=
  (stringSpanContent v).bind jsonUnescape

/-- Name of the envelope's success/failure discriminator field. -/
def successName : List Char := "Success".data

/-- Name of the envelope's error-message field. -/
def errorName : List Char := "Error".data

/-- Raw span of the JSON literal `false`. -/
def falseChars : List Char := "false".data

/-- Error message extracted from the envelope's `Error` field, when present
and a string. -/
def envelopeErrorMsg (body : List Char) : Option (List Char) :=
  match findField body errorName with
  | some (some v) => stringSpanDecoded v
  | _ => none

/-- Outcome of the endpoint-specific field-table extraction phase. -/
def parseEnvelopeFill (fields : FieldTable) :
    Option FieldTable → DecodeStatus × rc_api_response_t × FieldTable
  | some filled => (DecodeStatus.ok, ⟨1, none⟩, filled)
  | none => (DecodeStatus.schemaFailure, ⟨0, none⟩, fields)

/-- Act on the located envelope discriminator: a discriminated failure
populates only the error message and stops before any endpoint-specific
extraction; otherwise the object body is delegated to the endpoint field
table. -/
def parseEnvelopeSuccess (fields : FieldTable) (bodyRest : List Char) :
    Option (Option (List Char)) → DecodeStatus × rc_api_response_t × FieldTable
  | none => (DecodeStatus.schemaFailure, ⟨0, none⟩, fields)
  | some sv =>
    if sv = some falseChars then
      (DecodeStatus.semanticFailure, ⟨0, envelopeErrorMsg bodyRest⟩, fields)
    else
      parseEnvelopeFill fields (fillFields fields bodyRest)

/-- Dispatch on the response body's first significant character: only an
object body is decoded. -/
def parseEnvelopeAt (fields : FieldTable) :
    List Char → DecodeStatus × rc_api_response_t × FieldTable
  | '{' :: bodyRest => parseEnvelopeSuccess fields bodyRest (findField bodyRest successName)
  | _ => (DecodeStatus.schemaFailure, ⟨0, none⟩, fields)

/-- Model of `rc_json_parse_server_response`: validate the HTTP status,
locate the envelope discriminator, and on a discriminated failure populate
only the error message and stop; otherwise run the endpoint field-table
extraction over the object body. -/
def rc_json_parse_server_response (server_response : rc_api_server_response_t)
    (fields : FieldTable) : DecodeStatus × rc_api_response_t × FieldTable :=
  if server_response.http_status_code < 200 ∨ 299 < server_response.http_status_code then
    (DecodeStatus.transportFailure, ⟨0, none⟩, fields)
  else
    parseEnvelopeAt fields (skipWS server_response.body)

/-- Concrete discriminated-failure response body
`{"Success":false,"Error":"Invalid API Token"}`. -/
def c1BodyRest : List Char :=
  "\"Success\":false,\"Error\":\"Invalid API Token\"".data ++ ['}']

/-- The full concrete body, brace included. -/
def c1Body : List Char := '{' :: c1BodyRest

/-! ### Arena buffer

Modelled from the spec, section 4.1: a chunked append-only pool.  `reserve`
returns a writable region, adding a geometrically grown chunk when the current
chunk lacks room; `consume` commits the written prefix; `alloc` commits a
zeroed region; `strcpy`/`strncpy` copy a string into a committed region.
Chunks never move or resize downward, and committed bytes are never
rewritten. -/

/-- One arena chunk: committed bytes plus the chunk's fixed capacity. -/
structure rc_api_buffer_chunk_t where
  committed : List Char
  capacity : Nat
deriving DecidableEq

/-- The arena: an ordered list of chunks. -/
structure rc_api_buffer_t where
  chunks : List rc_api_buffer_chunk_t
deriving DecidableEq

/-- A pointer previously handed out by the arena: chunk index and byte
offset within that chunk. -/
structure ArenaPtr where
  chunk : Nat
  off : Nat
deriving DecidableEq

/-- The NUL terminator byte. -/
def nulChar : Char := Char.ofNat 0

/-- Capacity of a freshly grown chunk: at least the request, growing
geometrically from the current chunk size (256 bytes to start). -/
def growSize (a : rc_api_buffer_t) (n : Nat) : Nat :=
  match a.chunks.getLast? with
  | none => max n 256
  | some ch => max n (2 * ch.capacity)

/-- Model of `rc_buf_reserve`: return a writable region of at least `n`
bytes at the end of the last chunk, appending a new chunk when the current
one lacks room.  The region is not yet committed. -/
def rc_buf_reserve (a : rc_api_buffer_t) (n : Nat) : rc_api_buffer_t × ArenaPtr :=
  match a.chunks.getLast? with
  | some ch =>
    if n ≤ ch.capacity - ch.committed.length then
      (a, ⟨a.chunks.length - 1, ch.committed.length⟩)
    else
      (⟨a.chunks ++ [⟨[], growSize a n⟩]⟩, ⟨a.chunks.length, 0⟩)
  | none => (⟨[⟨[], growSize a n⟩]⟩, ⟨0, 0⟩)

/-- Model of `rc_buf_consume`: commit bytes written into the reserved tail of
the current chunk, shrinking its free space. -/
def rc_buf_consume (a : rc_api_buffer_t) (written : List Char) : rc_api_buffer_t :=
  match a.chunks.getLast? with
  | none => a
  | some ch =>
    if ch.committed.length + written.length ≤ ch.capacity then
      ⟨a.chunks.dropLast ++ [⟨ch.committed ++ written, ch.capacity⟩]⟩
    else a

/-- Model of `rc_buf_alloc`: reserve and immediately commit a zeroed region. -/
def rc_buf_alloc (a : rc_api_buffer_t) (n : Nat) : rc_api_buffer_t × ArenaPtr :=
  let p := rc_buf_reserve a n
  (rc_buf_consume p.1 (List.replicate n nulChar), p.2)

/-- Model of `rc_buf_strcpy`: copy a string plus its NUL terminator into a
freshly reserved, committed region and return its start. -/
def rc_buf_strcpy (a : rc_api_buffer_t) (src : List Char) : rc_api_buffer_t × ArenaPtr :=
  let p := rc_buf_reserve a (src.length + 1)
  (rc_buf_consume p.1 (src ++ [nulChar]), p.2)

/-- Model of `rc_buf_strncpy`: copy a length-bounded string into the arena. -/
def rc_buf_strncpy (a : rc_api_buffer_t) (src : List Char) (len : Nat) :
    rc_api_buffer_t × ArenaPtr :=
  rc_buf_strcpy a (src.take len)

/-- Read the committed byte a pointer refers to, when the pointer is inside
the arena's committed region. -/
def readPtr (a : rc_api_buffer_t) (p : ArenaPtr) : Option Char :=
  match a.chunks.get? p.chunk with
  | some ch => ch.committed.get? p.off
  | none => none

/-- Read the NUL-terminated string a pointer refers to. -/
def readStrAt (a : rc_api_buffer_t) (p : ArenaPtr) : List Char :=
  match a.chunks.get? p.chunk with
  | some ch => (ch.committed.drop p.off).takeWhile fun c => c ≠ nulChar
  | none => []

/-- One arena operation, for reasoning about arbitrary operation sequences. -/
inductive ArenaOp where
  | reserve : Nat → ArenaOp
  | consume : List Char → ArenaOp
  | alloc : Nat → ArenaOp
  | strcpy : List Char → ArenaOp
  | strncpy : List Char → Nat → ArenaOp

/-- Apply one arena operation to the arena state. -/
def applyArenaOp (a : rc_api_buffer_t) : ArenaOp → rc_api_buffer_t
  | ArenaOp.reserve n => (rc_buf_reserve a n).1
  | ArenaOp.consume w => rc_buf_consume a w
  | ArenaOp.alloc n => (rc_buf_alloc a n).1
  | ArenaOp.strcpy s => (rc_buf_strcpy a s).1
  | ArenaOp.strncpy s n => (rc_buf_strncpy a s n).1

/-- Apply a sequence of arena operations from left to right. -/
def applyArenaOps (a : rc_api_buffer_t) (ops : List ArenaOp) : rc_api_buffer_t :=
  ops.foldl applyArenaOp a

/-- Decode a server response into an envelope owning the given arena: the
parsed error message, when present, is copied into the arena and the envelope
keeps a pointer to the copy. -/
def rc_api_process_response (buffer : rc_api_buffer_t)
    (server_response : rc_api_server_response_t) (fields : FieldTable) :
    DecodeStatus × rc_api_buffer_t × Option ArenaPtr × FieldTable :=
  match rc_json_parse_server_response server_response fields with
  | (st, resp, fs) =>
    match resp.error_message with
    | some msg =>
      let p := rc_buf_strcpy buffer msg
      (st, p.1, some p.2, fs)
    | none => (st, buffer, none, fs)

/-- Field-for-field observable output of a decoded envelope: the status, the
error message read back through the envelope's pointer, and the located
endpoint field spans. -/
def observeResponse (r : DecodeStatus × rc_api_buffer_t × Option ArenaPtr × FieldTable) :
    DecodeStatus × Option (List Char) × FieldTable :=
  (r.1, r.2.2.1.map (readStrAt r.2.1), r.2.2.2)

/-! ### URL/query builder

Modelled from the spec, section 4.2 and the `rc_api_url_builder_t` struct of
`rc_api_common.h`: a write cursor bounded by the initial size estimate plus an
accumulated error flag.  `written` models the span `[start, write)` and
`capacity` models `end - start`; `result` is true while no append has
overflowed the write bound. -/

/-- URL builder state: written bytes, write bound from the initial estimate,
and the accumulated result flag. -/
structure rc_api_url_builder_t where
  written : List Char
  capacity : Nat
  result : Bool
deriving DecidableEq

/-- Model of `rc_url_builder_init` with a size estimate. -/
def rc_url_builder_init (estimated_size : Nat) : rc_api_url_builder_t :=
  ⟨[], estimated_size, true⟩

/-- Model of `rc_url_builder_append`: copy bytes verbatim unless the builder
is already poisoned; an append that would exceed the write bound poisons the
builder and writes nothing. -/
def rc_url_builder_append (builder : rc_api_url_builder_t) (data : List Char) :
    rc_api_url_builder_t :=
  if builder.result = false then builder
  else if builder.capacity < builder.written.length + data.length then
    ⟨builder.written, builder.capacity, false⟩
  else ⟨builder.written ++ data, builder.capacity, true⟩

/-- Model of `rc_url_builder_finalize`: return the written span, or the
null-equivalent sentinel when any prior append overflowed. -/
def rc_url_builder_finalize (builder : rc_api_url_builder_t) : Option (List Char) :=
  if builder.result then some builder.written else none

/-- The sixteen uppercase hexadecimal digit characters, in order. -/
def hexChars : List Char := "0123456789ABCDEF".data

/-- Unreserved bytes, by code range: `A`-`Z`, `a`-`z`, `0`-`9`, and `-`
(45), `.` (46), `_` (95), `~` (126). -/
def isUnreservedByte (b : Nat) : Bool :=
  (48 ≤ b && b ≤ 57) || (65 ≤ b && b ≤ 90) || (97 ≤ b && b ≤ 122) ||
    b = 45 || b = 46 || b = 95 || b = 126

/-- Percent-encode one byte: unreserved bytes pass through, every other byte
becomes `%` followed by its two uppercase hexadecimal digits. -/
def encodeByte (b : Nat) : List Char :=
  if isUnreservedByte b then [Char.ofNat b]
  else ['%', hexChars.getD (b / 16) '0', hexChars.getD (b % 16) '0']

/-- The unreserved character set as the spec writes it: the 66 characters
`A`-`Z`, `a`-`z`, `0`-`9`, `-`, `_`, `.`, `~`, spelled out explicitly. -/
def unreservedSpecChars : List Char :=
  "ABCDEFGHIJKLMNOPQRSTUVWXYZabcdefghijklmnopqrstuvwxyz0123456789-_.~".data

/-- Uppercase hexadecimal digit character for a value below sixteen, built
arithmetically (digits `0`-`9` are codes 48-57, `A`-`F` are codes 65-70). -/
def hexUpperSpec (n : Nat) : Char :=
  if n < 10 then Char.ofNat (48 + n) else Char.ofNat (55 + n)

/-- Percent-encode a string byte by byte. -/
def urlEncode (s : List Char) : List Char :=
  s.flatMap fun c => encodeByte (c.toNat % 256)

/-- Model of `rc_url_builder_append_encoded_str`: append the percent-encoded
form of the string. -/
def rc_url_builder_append_encoded_str (builder : rc_api_url_builder_t)
    (s : List Char) : rc_api_url_builder_t :=
  rc_url_builder_append builder (urlEncode s)

/-- Separator for the next query parameter: `?` for the first parameter,
`&` afterwards. -/
def paramSep (builder : rc_api_url_builder_t) : Char :=
  if '?' ∈ builder.written then '&' else '?'

/-- Model of `rc_url_builder_append_str_param`: write `?name=` or `&name=`
followed by the percent-encoded value. -/
def rc_url_builder_append_str_param (builder : rc_api_url_builder_t)
    (param value : List Char) : rc_api_url_builder_t :=
  let b := rc_url_builder_append builder (paramSep builder :: param ++ ['='])
  rc_url_builder_append_encoded_str b value

/-- Model of `rc_url_builder_append_unum_param`: write the parameter with a
decimal-formatted unsigned value. -/
def rc_url_builder_append_unum_param (builder : rc_api_url_builder_t)
    (param : List Char) (value : Nat) : rc_api_url_builder_t :=
  rc_url_builder_append builder (paramSep builder :: param ++ '=' :: (Nat.repr value).data)

/-- Model of `rc_url_builder_append_num_param`: write the parameter with a
decimal-formatted signed value. -/
def rc_url_builder_append_num_param (builder : rc_api_url_builder_t)
    (param : List Char) (value : Int) : rc_api_url_builder_t :=
  rc_url_builder_append builder (paramSep builder :: param ++ '=' :: (Int.repr value).data)

/-- Model of `rc_api_url_build_dorequest`: the endpoint path followed by the
standard authenticated parameters `u=<username>` and `t=<api_token>`, with
the credential values percent-encoded. -/
def rc_api_url_build_dorequest (builder : rc_api_url_builder_t)
    (api username api_token : List Char) : rc_api_url_builder_t :=
  let b := rc_url_builder_append builder api
  let b := rc_url_builder_append_str_param b ['u'] username
  rc_url_builder_append_str_param b ['t'] api_token

/-- One URL-builder operation, for reasoning about arbitrary operation
sequences. -/
inductive BuilderOp where
  | raw : List Char → BuilderOp
  | encoded : List Char → BuilderOp
  | strParam : List Char → List Char → BuilderOp
  | unumParam : List Char → Nat → BuilderOp
  | numParam : List Char → Int → BuilderOp

/-- Apply one URL-builder operation. -/
def applyBuilderOp (b : rc_api_url_builder_t) : BuilderOp → rc_api_url_builder_t
  | BuilderOp.raw s => rc_url_builder_append b s
  | BuilderOp.encoded s => rc_url_builder_append_encoded_str b s
  | BuilderOp.strParam p v => rc_url_builder_append_str_param b p v
  | BuilderOp.unumParam p v => rc_url_builder_append_unum_param b p v
  | BuilderOp.numParam p v => rc_url_builder_append_num_param b p v

/-- Apply a sequence of URL-builder operations from left to right. -/
def applyBuilderOps (b : rc_api_url_builder_t) (ops : List BuilderOp) :
    rc_api_url_builder_t :=
  ops.foldl applyBuilderOp b

/-! ### Typed field accessors

Modelled from the spec, section 4.4: each accessor converts a located field
span; `_required_` variants stamp an error message naming the field into the
response envelope and return a failure code, `_optional_` variants fall back
to the caller-supplied default and never fail. -/

/-- Decimal digit value. -/
def digitVal (c : Char) : Option Nat :=
  if '0' ≤ c ∧ c ≤ '9' then some (c.toNat - 48) else none

/-- Accumulate decimal digits; any non-digit makes the span unparseable. -/
def parseDigits : List Char → Nat → Option Nat
  | [], acc => some acc
  | c :: cs, acc =>
    match digitVal c with
    | some d => parseDigits cs (acc * 10 + d)
    | none => none

/-- Parse a raw span as an unsigned decimal integer. -/
def parseUIntSpan : List Char → Option Nat
  | [] => none
  | l => parseDigits l 0

/-- Parse a raw span as a signed decimal integer. -/
def parseIntSpan : List Char → Option Int
  | '-' :: rest => (parseUIntSpan rest).map fun n => -(n : Int)
  | l => (parseUIntSpan l).map fun n => (n : Int)

/-- Parse a raw span as the unquoted literal `true` or `false`. -/
def parseBoolSpan (l : List Char) : Option Bool :=
  if l = "true".data then some true
  else if l = "false".data then some false
  else none

/-- Model of `rc_json_get_num`: signed integer conversion of a located
field. -/
def rc_json_get_num (field : List Char × Option (List Char)) : Option Int :=
  field.2.bind parseIntSpan

/-- Model of `rc_json_get_unum`: unsigned integer conversion of a located
field. -/
def rc_json_get_unum (field : List Char × Option (List Char)) : Option Nat :=
  field.2.bind parseUIntSpan

/-- Model of `rc_json_get_bool`: boolean conversion of a located field. -/
def rc_json_get_bool (field : List Char × Option (List Char)) : Option Bool :=
  field.2.bind parseBoolSpan

/-- Model of `rc_json_get_string`: escape-decoded string conversion of a
located field. -/
def rc_json_get_string (field : List Char × Option (List Char)) : Option (List Char) :=
  field.2.bind stringSpanDecoded

/-- Model of `rc_json_get_datetime`: Unix epoch seconds, a plain integer on
the wire. -/
def rc_json_get_datetime (field : List Char × Option (List Char)) : Option Int :=
  field.2.bind parseIntSpan

/-- Human-readable schema-failure message naming the offending field. -/
def missingFieldMsg (field_name : List Char) : List Char :=
  field_name ++ " is missing or invalid".data

/-- Envelope with the schema-failure message for the named field stamped in. -/
def stampFieldError (response : rc_api_response_t) (field_name : List Char) :
    rc_api_response_t :=
  ⟨response.succeeded, some (missingFieldMsg field_name)⟩

/-- Model of `rc_json_get_required_num`: output value, updated envelope, and
success flag. -/
def rc_json_get_required_num (response : rc_api_response_t)
    (field : List Char × Option (List Char)) : Int × rc_api_response_t × Bool :=
  match rc_json_get_num field with
  | some n => (n, response, true)
  | none => (0, stampFieldError response field.1, false)

/-- Model of `rc_json_get_required_unum`. -/
def rc_json_get_required_unum (response : rc_api_response_t)
    (field : List Char × Option (List Char)) : Nat × rc_api_response_t × Bool :=
  match rc_json_get_unum field with
  | some n => (n, response, true)
  | none => (0, stampFieldError response field.1, false)

/-- Model of `rc_json_get_required_bool`. -/
def rc_json_get_required_bool (response : rc_api_response_t)
    (field : List Char × Option (List Char)) : Bool × rc_api_response_t × Bool :=
  match rc_json_get_bool field with
  | some b => (b, response, true)
  | none => (false, stampFieldError response field.1, false)

/-- Model of `rc_json_get_required_string`. -/
def rc_json_get_required_string (response : rc_api_response_t)
    (field : List Char × Option (List Char)) : List Char × rc_api_response_t × Bool :=
  match rc_json_get_string field with
  | some s => (s, response, true)
  | none => ([], stampFieldError response field.1, false)

/-- Model of `rc_json_get_required_datetime`. -/
def rc_json_get_required_datetime (response : rc_api_response_t)
    (field : List Char × Option (List Char)) : Int × rc_api_response_t × Bool :=
  match rc_json_get_datetime field with
  | some n => (n, response, true)
  | none => (0, stampFieldError response field.1, false)

/-- Model of `rc_json_get_optional_num`: the parsed value or the default;
never an error. -/
def rc_json_get_optional_num (field : List Char × Option (List Char))
    (default_value : Int) : Int :=
  match rc_json_get_num field with
  | some n => n
  | none => default_value

/-- Model of `rc_json_get_optional_unum`. -/
def rc_json_get_optional_unum (field : List Char × Option (List Char))
    (default_value : Nat) : Nat :=
  match rc_json_get_unum field with
  | some n => n
  | none => default_value

/-- Model of `rc_json_get_optional_bool`. -/
def rc_json_get_optional_bool (field : List Char × Option (List Char))
    (default_value : Bool) : Bool :=
  match rc_json_get_bool field with
  | some b => b
  | none => default_value

/-- Model of `rc_json_get_optional_string`: the decoded copy, or the default
string verbatim. -/
def rc_json_get_optional_string (field : List Char × Option (List Char))
    (default_value : List Char) : List Char :=
  match rc_json_get_string field with
  | some s => s
  | none => default_value

end RcApi

/-! ## Proofs about `ParseKeyValue` -/

namespace PostProcessing

theorem get?_eq_head?_drop (l : List Char) (n : Nat) : l.get? n = (l.drop n).head? := by
  by_cases h : n < l.length
  · rw [List.drop_eq_get_cons h, List.get?_eq_get h]
    rfl
  · rw [List.get?_eq_none.mpr (by omega), List.drop_of_length_le (by omega)]
    rfl

theorem advanceWhile_eq_aux (p : Char → Bool) (line : List Char) :
    ∀ (k i : Nat), line.length ≤ i + k →
      advanceWhile p line i = i + ((line.drop i).takeWhile p).length := by
  intro k
  induction k with
  | zero =>
    intro i hk
    rw [advanceWhile, dif_neg (by omega), List.drop_of_length_le (by omega)]
    simp
  | succ k ih =>
    intro i hk
    by_cases h : i < line.length
    · have hdrop : line.drop i = line.get ⟨i, h⟩ :: line.drop (i + 1) :=
        List.drop_eq_get_cons h
      rw [advanceWhile, dif_pos h]
      by_cases hp : p (line.get ⟨i, h⟩)
      · rw [if_pos hp, ih (i + 1) (by omega), hdrop, List.takeWhile_cons_of_pos hp,
          List.length_cons]
        omega
      · rw [if_neg hp, hdrop, List.takeWhile_cons_of_neg hp]
        simp
    · rw [advanceWhile, dif_neg h, List.drop_of_length_le (by omega)]
      simp

theorem advanceWhile_eq (p : Char → Bool) (line : List Char) (i : Nat) :
    advanceWhile p line i = i + ((line.drop i).takeWhile p).length :=
  advanceWhile_eq_aux p line line.length i (by omega)

theorem trimEnd_nil : trimEnd [] = [] := rfl

theorem trimEnd_append_space {c : Char} (l : List Char) (hc : isspace c = true) :
    trimEnd (l ++ [c]) = trimEnd l := by
  unfold trimEnd
  rw [List.reverse_append]
  simp [hc]

theorem trimEnd_append_nonspace {c : Char} (l : List Char) (hc : isspace c = false) :
    trimEnd (l ++ [c]) = l ++ [c] := by
  unfold trimEnd
  rw [List.reverse_append]
  have h1 : ([c].reverse ++ l.reverse).dropWhile isspace = c :: l.reverse := by
    simp only [List.reverse_singleton, List.singleton_append]
    exact List.dropWhile_cons_of_neg (by simp [hc])
  rw [h1]
  simp

theorem trimEnd_decomp (l : List Char) :
    l = trimEnd l ++ (l.reverse.takeWhile isspace).reverse := by
  unfold trimEnd
  conv_lhs => rw [← List.reverse_reverse l,
    ← List.takeWhile_append_dropWhile isspace l.reverse]
  rw [List.reverse_append]

theorem trimEnd_take (l : List Char) :
    l.take ((trimEnd l).length) = trimEnd l := by
  have h := List.take_left (trimEnd l) (l.reverse.takeWhile isspace).reverse
  rw [← trimEnd_decomp l] at h
  exact h

theorem drop_length_takeWhile (p : Char → Bool) (l : List Char) :
    l.drop ((l.takeWhile p).length) = l.dropWhile p := by
  have h := List.drop_left (l.takeWhile p) (l.dropWhile p)
  rwa [List.takeWhile_append_dropWhile] at h

theorem take_length_takeWhile (p : Char → Bool) (l : List Char) :
    l.take ((l.takeWhile p).length) = l.takeWhile p := by
  have h := List.take_left (l.takeWhile p) (l.dropWhile p)
  rwa [List.takeWhile_append_dropWhile] at h

theorem retreatWhile_eq (line : List Char) (lo : Nat) :
    ∀ j, lo ≤ j → j ≤ line.length →
      retreatWhile isspace line lo j
        = lo + (trimEnd ((line.drop lo).take (j - lo))).length := by
  intro j
  induction j with
  | zero =>
    intro h1 _
    have hlo : lo = 0 := by omega
    subst hlo
    simp [retreatWhile, trimEnd_nil]
  | succ j ih =>
    intro h1 h2
    by_cases hlo : j + 1 ≤ lo
    · have heq : lo = j + 1 := by omega
      subst heq
      rw [retreatWhile, if_pos (by omega)]
      simp [trimEnd_nil]
    · have hj : j < line.length := by omega
      have hsub : j + 1 - lo = (j - lo) + 1 := by omega
      have hget : (line.drop lo)[j - lo]? = some (line.get ⟨j, hj⟩) := by
        rw [List.getElem?_drop]
        have : lo + (j - lo) = j := by omega
        rw [this]
        simp [List.getElem?_eq_getElem hj, List.get_eq_getElem]
      have hslice : (line.drop lo).take (j + 1 - lo)
          = (line.drop lo).take (j - lo) ++ [line.get ⟨j, hj⟩] := by
        rw [hsub, List.take_succ, hget]
        rfl
      have hlen : ((line.drop lo).take (j - lo)).length = j - lo := by
        rw [List.length_take, List.length_drop]
        omega
      rw [retreatWhile, if_neg hlo, dif_pos hj]
      by_cases hp : isspace (line.get ⟨j, hj⟩)
      · rw [if_pos hp, ih (by omega) (by omega), hslice, trimEnd_append_space _ hp]
      · rw [if_neg hp, hslice, trimEnd_append_nonspace _ (by simpa using hp)]
        rw [List.length_append, hlen]
        simp
        omega

theorem isspace_ne_eq {c : Char} (h : isspace c = true) : c ≠ '=' := by
  intro hc
  subst hc
  simp [isspace] at h

theorem keyChar_ne_eq {c : Char} (h : keyChar c = true) : c ≠ '=' := by
  simp only [keyChar, Bool.and_eq_true, decide_eq_true_eq] at h
  exact h.2

/-- C10: for every input line, `ParseKeyValue` either sets the key to the
line's first token (non-whitespace, non-`=` characters after leading
whitespace) and the value to the non-empty text after the first `=` with
surrounding whitespace trimmed, or — when the key is empty, the key extends
to the end of the line, the character after the key (skipping whitespace) is
not `=`, or the value is empty after trimming — returns both out-parameters
completely unmodified. -/
theorem c10_parse_key_value (line key value : List Char) :
    ParseKeyValue line key value = (parseKeyValueSpec line).getD (key, value) := by
  have hA1 : advanceWhile isspace line 0 = (line.takeWhile isspace).length := by
    rw [advanceWhile_eq, List.drop_zero]
    omega
  have hA2 : line.drop ((line.takeWhile isspace).length) = line.dropWhile isspace :=
    drop_length_takeWhile isspace line
  have hA3 : advanceWhile keyChar line ((line.takeWhile isspace).length)
      = (line.takeWhile isspace).length + ((line.dropWhile isspace).takeWhile keyChar).length := by
    rw [advanceWhile_eq, hA2]
  have hA4 : line.drop ((line.takeWhile isspace).length
        + ((line.dropWhile isspace).takeWhile keyChar).length)
      = (line.dropWhile isspace).dropWhile keyChar := by
    rw [← List.drop_drop, hA2, drop_length_takeWhile]
  have hL1 : (line.takeWhile isspace).length + (line.dropWhile isspace).length
      = line.length := by
    have h := congrArg List.length (List.takeWhile_append_dropWhile isspace line)
    rwa [List.length_append] at h
  have hL2 : ((line.dropWhile isspace).takeWhile keyChar).length
        + ((line.dropWhile isspace).dropWhile keyChar).length
      = (line.dropWhile isspace).length := by
    have h := congrArg List.length
      (List.takeWhile_append_dropWhile keyChar (line.dropWhile isspace))
    rwa [List.length_append] at h
  simp only [ParseKeyValue, parseKeyValueSpec]
  rw [hA1, hA3]
  by_cases hc1 : (line.dropWhile isspace).takeWhile keyChar = []
      ∨ (line.dropWhile isspace).dropWhile keyChar = []
  · have hcode : (line.takeWhile isspace).length
        = (line.takeWhile isspace).length + ((line.dropWhile isspace).takeWhile keyChar).length
        ∨ (line.takeWhile isspace).length + ((line.dropWhile isspace).takeWhile keyChar).length
          = line.length := by
      rcases hc1 with h | h
      · left
        rw [h]
        rfl
      · right
        rw [h] at hL2
        simp at hL2
        omega
    rw [if_pos hcode, if_pos hc1]
    rfl
  · push_neg at hc1
    obtain ⟨hk1, hk2⟩ := hc1
    have hklen : 0 < ((line.dropWhile isspace).takeWhile keyChar).length :=
      List.length_pos.mpr hk1
    have haklen : 0 < ((line.dropWhile isspace).dropWhile keyChar).length :=
      List.length_pos.mpr hk2
    have hnc1 : ¬((line.takeWhile isspace).length
        = (line.takeWhile isspace).length + ((line.dropWhile isspace).takeWhile keyChar).length
        ∨ (line.takeWhile isspace).length + ((line.dropWhile isspace).takeWhile keyChar).length
          = line.length) := by
      push_neg
      constructor <;> omega
    have hns1 : ¬((line.dropWhile isspace).takeWhile keyChar = []
        ∨ (line.dropWhile isspace).dropWhile keyChar = []) := by
      push_neg
      exact ⟨hk1, hk2⟩
    rw [if_neg hnc1, if_neg hns1]
    have hA5 : advanceWhile isspace line ((line.takeWhile isspace).length
          + ((line.dropWhile isspace).takeWhile keyChar).length)
        = (line.takeWhile isspace).length
          + ((line.dropWhile isspace).takeWhile keyChar).length
          + (((line.dropWhile isspace).dropWhile keyChar).takeWhile isspace).length := by
      rw [advanceWhile_eq, hA4]
    have hA6 : line.drop ((line.takeWhile isspace).length
          + ((line.dropWhile isspace).takeWhile keyChar).length
          + (((line.dropWhile isspace).dropWhile keyChar).takeWhile isspace).length)
        = ((line.dropWhile isspace).dropWhile keyChar).dropWhile isspace := by
      rw [← List.drop_drop, hA4, drop_length_takeWhile]
    have hL3 : (((line.dropWhile isspace).dropWhile keyChar).takeWhile isspace).length
          + (((line.dropWhile isspace).dropWhile keyChar).dropWhile isspace).length
        = ((line.dropWhile isspace).dropWhile keyChar).length := by
      have h := congrArg List.length (List.takeWhile_append_dropWhile isspace
        ((line.dropWhile isspace).dropWhile keyChar))
      rwa [List.length_append] at h
    rw [hA5]
    have hget : line.get? ((line.takeWhile isspace).length
          + ((line.dropWhile isspace).takeWhile keyChar).length
          + (((line.dropWhile isspace).dropWhile keyChar).takeWhile isspace).length)
        = (((line.dropWhile isspace).dropWhile keyChar).dropWhile isspace).head? := by
      rw [get?_eq_head?_drop, hA6]
    cases hak : ((line.dropWhile isspace).dropWhile keyChar).dropWhile isspace with
    | nil =>
      rw [hak] at hget hL3
      simp only [List.length_nil, Nat.add_zero] at hL3
      have hvz : (line.takeWhile isspace).length
          + ((line.dropWhile isspace).takeWhile keyChar).length
          + (((line.dropWhile isspace).dropWhile keyChar).takeWhile isspace).length
          = line.length := by omega
      have hns2 : (([] : List Char).head? ≠ some '=') := by simp
      rw [if_pos (Or.inl hvz), if_pos hns2]
      rfl
    | cons c tail =>
      rw [hak] at hget hL3
      simp only [List.length_cons] at hL3
      by_cases hceq : c = '='
      · subst hceq
        have hnc2 : ¬((line.takeWhile isspace).length
            + ((line.dropWhile isspace).takeWhile keyChar).length
            + (((line.dropWhile isspace).dropWhile keyChar).takeWhile isspace).length
              = line.length
            ∨ line.get? ((line.takeWhile isspace).length
              + ((line.dropWhile isspace).takeWhile keyChar).length
              + (((line.dropWhile isspace).dropWhile keyChar).takeWhile isspace).length)
              ≠ some '=') := by
          push_neg
          refine ⟨by omega, ?_⟩
          rw [hget]
          rfl
        have hns2 : ¬((('=' :: tail : List Char).head? ≠ some '=')) := by simp
        rw [if_neg hnc2, if_neg hns2]
        have hdropeq : line.dropWhile (fun x => decide (x ≠ '=')) = '=' :: tail := by
          have hline : line = line.takeWhile isspace ++ ((line.dropWhile isspace).takeWhile keyChar
              ++ (((line.dropWhile isspace).dropWhile keyChar).takeWhile isspace
                ++ ('=' :: tail))) := by
            conv_lhs => rw [← List.takeWhile_append_dropWhile isspace line]
            congr 1
            conv_lhs => rw [← List.takeWhile_append_dropWhile keyChar (line.dropWhile isspace)]
            congr 1
            conv_lhs => rw [← List.takeWhile_append_dropWhile isspace
              ((line.dropWhile isspace).dropWhile keyChar)]
            rw [hak]
          conv_lhs => rw [hline]
          rw [List.dropWhile_append_of_pos ?h1, List.dropWhile_append_of_pos ?h2,
            List.dropWhile_append_of_pos ?h3, List.dropWhile_cons_of_neg (by simp)]
          case h1 =>
            intro a ha
            exact decide_eq_true (isspace_ne_eq (List.mem_takeWhile_imp ha))
          case h2 =>
            intro a ha
            exact decide_eq_true (keyChar_ne_eq (List.mem_takeWhile_imp ha))
          case h3 =>
            intro a ha
            exact decide_eq_true (isspace_ne_eq (List.mem_takeWhile_imp ha))
        have hdrop1 : line.drop ((line.takeWhile isspace).length
              + ((line.dropWhile isspace).takeWhile keyChar).length
              + (((line.dropWhile isspace).dropWhile keyChar).takeWhile isspace).length + 1)
            = tail := by
          rw [← List.drop_drop, hA6, hak]
          rfl
        have hA7 : advanceWhile isspace line ((line.takeWhile isspace).length
              + ((line.dropWhile isspace).takeWhile keyChar).length
              + (((line.dropWhile isspace).dropWhile keyChar).takeWhile isspace).length + 1)
            = (line.takeWhile isspace).length
              + ((line.dropWhile isspace).takeWhile keyChar).length
              + (((line.dropWhile isspace).dropWhile keyChar).takeWhile isspace).length + 1
              + (tail.takeWhile isspace).length := by
          rw [advanceWhile_eq, hdrop1]
        have hA8 : line.drop ((line.takeWhile isspace).length
              + ((line.dropWhile isspace).takeWhile keyChar).length
              + (((line.dropWhile isspace).dropWhile keyChar).takeWhile isspace).length + 1
              + (tail.takeWhile isspace).length)
            = tail.dropWhile isspace := by
          rw [← List.drop_drop, hdrop1, drop_length_takeWhile]
        have hLtail : (line.takeWhile isspace).length
              + ((line.dropWhile isspace).takeWhile keyChar).length
              + (((line.dropWhile isspace).dropWhile keyChar).takeWhile isspace).length + 1
              + tail.length = line.length := by
          have h := congrArg List.length hdrop1
          rw [List.length_drop] at h
          omega
        have hA9 : retreatWhile isspace line ((line.takeWhile isspace).length
              + ((line.dropWhile isspace).takeWhile keyChar).length
              + (((line.dropWhile isspace).dropWhile keyChar).takeWhile isspace).length + 1
              + (tail.takeWhile isspace).length) line.length
            = (line.takeWhile isspace).length
              + ((line.dropWhile isspace).takeWhile keyChar).length
              + (((line.dropWhile isspace).dropWhile keyChar).takeWhile isspace).length + 1
              + (tail.takeWhile isspace).length
              + (trimEnd (tail.dropWhile isspace)).length := by
          have hL4 : (tail.takeWhile isspace).length + (tail.dropWhile isspace).length
              = tail.length := by
            have h := congrArg List.length (List.takeWhile_append_dropWhile isspace tail)
            rwa [List.length_append] at h
          have h9 := retreatWhile_eq line ((line.takeWhile isspace).length
            + ((line.dropWhile isspace).takeWhile keyChar).length
            + (((line.dropWhile isspace).dropWhile keyChar).takeWhile isspace).length + 1
            + (tail.takeWhile isspace).length) line.length (by omega) (by omega)
          have htake : (line.drop ((line.takeWhile isspace).length
                + ((line.dropWhile isspace).takeWhile keyChar).length
                + (((line.dropWhile isspace).dropWhile keyChar).takeWhile isspace).length + 1
                + (tail.takeWhile isspace).length)).take
                (line.length - ((line.takeWhile isspace).length
                  + ((line.dropWhile isspace).takeWhile keyChar).length
                  + (((line.dropWhile isspace).dropWhile keyChar).takeWhile isspace).length + 1
                  + (tail.takeWhile isspace).length))
              = tail.dropWhile isspace := by
            rw [hA8]
            apply List.take_of_length_le
            have hlen8 := congrArg List.length hA8
            rw [List.length_drop] at hlen8
            omega
          rw [h9, htake]
        rw [hA7, hA9, hdropeq]
        have htb : trimBoth (('=' :: tail).drop 1) = trimEnd (tail.dropWhile isspace) := by
          rfl
        rw [htb]
        by_cases hv : trimEnd (tail.dropWhile isspace) = []
        · have hc3 : (line.takeWhile isspace).length
              + ((line.dropWhile isspace).takeWhile keyChar).length
              + (((line.dropWhile isspace).dropWhile keyChar).takeWhile isspace).length + 1
              + (tail.takeWhile isspace).length
              = (line.takeWhile isspace).length
              + ((line.dropWhile isspace).takeWhile keyChar).length
              + (((line.dropWhile isspace).dropWhile keyChar).takeWhile isspace).length + 1
              + (tail.takeWhile isspace).length
              + (trimEnd (tail.dropWhile isspace)).length := by
            rw [hv]
            rfl
          rw [if_pos hc3, if_pos hv]
          rfl
        · have hc3n : ¬((line.takeWhile isspace).length
              + ((line.dropWhile isspace).takeWhile keyChar).length
              + (((line.dropWhile isspace).dropWhile keyChar).takeWhile isspace).length + 1
              + (tail.takeWhile isspace).length
              = (line.takeWhile isspace).length
              + ((line.dropWhile isspace).takeWhile keyChar).length
              + (((line.dropWhile isspace).dropWhile keyChar).takeWhile isspace).length + 1
              + (tail.takeWhile isspace).length
              + (trimEnd (tail.dropWhile isspace)).length) := by
            intro h
            apply hv
            apply List.eq_nil_of_length_eq_zero
            omega
          rw [if_neg hc3n, if_neg hv]
          have hkeyslice : (line.drop ((line.takeWhile isspace).length)).take
                ((line.takeWhile isspace).length
                  + ((line.dropWhile isspace).takeWhile keyChar).length
                  - (line.takeWhile isspace).length)
              = (line.dropWhile isspace).takeWhile keyChar := by
            rw [hA2, Nat.add_sub_cancel_left, take_length_takeWhile]
          have hvalslice : (line.drop ((line.takeWhile isspace).length
                  + ((line.dropWhile isspace).takeWhile keyChar).length
                  + (((line.dropWhile isspace).dropWhile keyChar).takeWhile isspace).length + 1
                  + (tail.takeWhile isspace).length)).take
                ((line.takeWhile isspace).length
                  + ((line.dropWhile isspace).takeWhile keyChar).length
                  + (((line.dropWhile isspace).dropWhile keyChar).takeWhile isspace).length + 1
                  + (tail.takeWhile isspace).length
                  + (trimEnd (tail.dropWhile isspace)).length
                  - ((line.takeWhile isspace).length
                    + ((line.dropWhile isspace).takeWhile keyChar).length
                    + (((line.dropWhile isspace).dropWhile keyChar).takeWhile isspace).length + 1
                    + (tail.takeWhile isspace).length))
              = trimEnd (tail.dropWhile isspace) := by
            rw [hA8, Nat.add_sub_cancel_left, trimEnd_take]
          rw [hkeyslice, hvalslice]
          rfl
      · have hpos2 : (line.takeWhile isspace).length
            + ((line.dropWhile isspace).takeWhile keyChar).length
            + (((line.dropWhile isspace).dropWhile keyChar).takeWhile isspace).length
              = line.length
            ∨ line.get? ((line.takeWhile isspace).length
              + ((line.dropWhile isspace).takeWhile keyChar).length
              + (((line.dropWhile isspace).dropWhile keyChar).takeWhile isspace).length)
              ≠ some '=' := by
          right
          rw [hget]
          simp [hceq]
        have hspos2 : ((c :: tail : List Char).head? ≠ some '=') := by
          simp [hceq]
        rw [if_pos hpos2, if_pos hspos2]
        rfl

end PostProcessing

/-! ## Proofs about the JSON scanner -/

namespace RcApi

theorem skipWS_not_ws {c : Char} (cs : List Char) (h : isWS c = false) :
    skipWS (c :: cs) = c :: cs := by
  rw [skipWS, if_neg (by simp [h])]

theorem skipWS_suffix (cs : List Char) : ∃ t, cs = t ++ skipWS cs := by
  induction cs with
  | nil => exact ⟨[], rfl⟩
  | cons c cs ih =>
    by_cases h : isWS c
    · obtain ⟨t, ht⟩ := ih
      refine ⟨c :: t, ?_⟩
      rw [skipWS, if_pos h, List.cons_append, ← ht]
    · exact ⟨[], by rw [skipWS, if_neg h, List.nil_append]⟩

theorem skipBare_append (cs : List Char) : (skipBare cs).1 ++ (skipBare cs).2 = cs := by
  induction cs with
  | nil => rfl
  | cons c cs ih =>
    rw [skipBare]
    by_cases h : (isDelim c || isWS c) = true
    · rw [if_pos h]
      rfl
    · rw [if_neg h]
      simpa using ih

theorem bareOK_split {c : Char} (hc : bareOK c = true) :
    c ≠ ',' ∧ c ≠ '}' ∧ c ≠ ']' ∧ c ≠ '"' ∧ c ≠ '{' ∧ c ≠ '[' ∧ isWS c = false := by
  simp only [bareOK, Bool.not_eq_eq_eq_not, Bool.not_true, Bool.or_eq_false_iff,
    decide_eq_false_iff_not] at hc
  obtain ⟨⟨⟨⟨⟨⟨h1, h2⟩, h3⟩, h4⟩, h5⟩, h6⟩, h7⟩ := hc
  exact ⟨h1, h2, h3, h4, h5, h6, h7⟩

theorem skipBare_exact (l : List Char) :
    ∀ rest, (∀ c ∈ l, bareOK c = true) → delimHead rest = true →
      skipBare (l ++ rest) = (l, rest) := by
  induction l with
  | nil =>
    intro rest _ hr
    cases rest with
    | nil => rfl
    | cons c cs =>
      simp only [delimHead] at hr
      rw [List.nil_append, skipBare, if_pos (by simp [hr])]
  | cons c l ih =>
    intro rest hl hr
    obtain ⟨h1, h2, h3, _, _, _, h7⟩ := bareOK_split (hl c (by simp))
    have hcond : (isDelim c || isWS c) = false := by
      simp [isDelim, h1, h2, h3, h7]
    rw [List.cons_append, skipBare, if_neg (by simp [hcond])]
    simp only [ih rest (fun x hx => hl x (List.mem_cons_of_mem c hx)) hr]

theorem skipString_append_aux (n : Nat) : ∀ (cs s r : List Char), cs.length ≤ n →
    skipString cs = some (s, r) → cs = s ++ '"' :: r := by
  induction n with
  | zero =>
    intro cs s r hlen h
    have hnil : cs = [] := List.eq_nil_of_length_eq_zero (by omega)
    subst hnil
    exact Option.noConfusion h
  | succ n ih =>
    intro cs s r hlen h
    cases cs with
    | nil => exact Option.noConfusion h
    | cons c cs' =>
      rw [skipString.eq_def] at h
      dsimp only at h
      split_ifs at h with hq hb
      · simp only [Option.some.injEq, Prod.mk.injEq] at h
        obtain ⟨hs, hr⟩ := h
        subst hs
        subst hr
        subst hq
        simp
      · subst hb
        cases cs' with
        | nil => simp at h
        | cons d cs'' =>
          simp only [Option.map_eq_some'] at h
          obtain ⟨⟨s1, r1⟩, h1, h2⟩ := h
          simp only [Prod.mk.injEq] at h2
          obtain ⟨hs, hr⟩ := h2
          subst hs
          subst hr
          have hrec := ih cs'' s1 r1 (by simp at hlen; omega) h1
          rw [List.cons_append, List.cons_append, ← hrec]
      · simp only [Option.map_eq_some'] at h
        obtain ⟨⟨s1, r1⟩, h1, h2⟩ := h
        simp only [Prod.mk.injEq] at h2
        obtain ⟨hs, hr⟩ := h2
        subst hs
        subst hr
        have hrec := ih cs' s1 r1 (by simp at hlen; omega) h1
        rw [List.cons_append, ← hrec]

theorem skipString_append {cs s r : List Char} (h : skipString cs = some (s, r)) :
    cs = s ++ '"' :: r :=
  skipString_append_aux cs.length cs s r (by omega) h

theorem skipString_none_aux (n : Nat) : ∀ (cs : List Char), cs.length ≤ n →
    '"' ∉ cs → skipString cs = none := by
  induction n with
  | zero =>
    intro cs hlen _
    have hnil : cs = [] := List.eq_nil_of_length_eq_zero (by omega)
    subst hnil
    rfl
  | succ n ih =>
    intro cs hlen hq
    cases cs with
    | nil => rfl
    | cons c cs' =>
      have hcq : c ≠ '"' := by
        intro hc
        exact hq (by simp [hc])
      rw [skipString.eq_def]
      dsimp only
      rw [if_neg hcq]
      by_cases hb : c = '\\'
      · rw [if_pos hb]
        cases cs' with
        | nil => rfl
        | cons d cs'' =>
          dsimp only
          rw [ih cs'' (by simp at hlen; omega) (fun hmem => hq (by simp [hmem]))]
          rfl
      · rw [if_neg hb, ih cs' (by simp at hlen; omega) (fun hmem => hq (by simp [hmem]))]
        rfl

theorem skipString_none {cs : List Char} (h : '"' ∉ cs) : skipString cs = none :=
  skipString_none_aux cs.length cs (by omega) h

theorem skipString_nil_quote (rest : List Char) :
    skipString ('"' :: rest) = some ([], rest) := by
  rw [skipString.eq_def]
  dsimp only
  rw [if_pos rfl]

theorem skipString_closes_aux (n : Nat) : ∀ (s rest : List Char), s.length ≤ n →
    rawStrOK s = true → skipString (s ++ '"' :: rest) = some (s, rest) := by
  induction n with
  | zero =>
    intro s rest hlen _
    have hnil : s = [] := List.eq_nil_of_length_eq_zero (by omega)
    subst hnil
    rw [List.nil_append]
    exact skipString_nil_quote rest
  | succ n ih =>
    intro s rest hlen hraw
    cases s with
    | nil =>
      rw [List.nil_append]
      exact skipString_nil_quote rest
    | cons c s' =>
      rw [rawStrOK.eq_def] at hraw
      dsimp only at hraw
      split_ifs at hraw with hq hb
      · subst hb
        cases s' with
        | nil => exact absurd hraw (by decide)
        | cons d s'' =>
          rw [List.cons_append, List.cons_append, skipString.eq_def]
          dsimp only
          rw [if_neg (by decide), if_pos rfl]
          rw [ih s'' rest (by simp at hlen; omega) hraw]
          rfl
      · rw [List.cons_append, skipString.eq_def]
        dsimp only
        rw [if_neg hq, if_neg hb,
          ih s' rest (by simp at hlen; omega) hraw]
        rfl

theorem skipString_closes {s : List Char} (rest : List Char) (h : rawStrOK s = true) :
    skipString (s ++ '"' :: rest) = some (s, rest) :=
  skipString_closes_aux s.length s rest (by omega) h

end RcApi

namespace RcApi

theorem mapPre_nil (o : Option (List Char × List Char)) : mapPre [] o = o := by
  cases o with
  | none => rfl
  | some p => simp [mapPre]

theorem mapPre_mapPre (a b : List Char) (o : Option (List Char × List Char)) :
    mapPre a (mapPre b o) = mapPre (a ++ b) o := by
  cases o with
  | none => rfl
  | some p => simp [mapPre]

theorem mapPre_some {a v r : List Char} {o : Option (List Char × List Char)}
    (h : o = some (v, r)) : mapPre a o = some (a ++ v, r) := by
  rw [h]
  rfl

theorem skipBr_norm_plain {c : Char} (cs : List Char) (d : Nat)
    (h1 : c ≠ '"') (h2 : ¬(c = '{' ∨ c = '[')) (h3 : ¬(c = '}' ∨ c = ']')) :
    skipBr (c :: cs) d BrMode.norm = mapPre [c] (skipBr cs d BrMode.norm) := by
  rw [skipBr.eq_def]
  dsimp only
  rw [if_neg h1, if_neg h2, if_neg h3]
  rfl

theorem skipBr_norm_quote (cs : List Char) (d : Nat) :
    skipBr ('"' :: cs) d BrMode.norm = mapPre ['"'] (skipBr cs d BrMode.instr) := by
  rw [skipBr.eq_def]
  dsimp only
  rw [if_pos rfl]
  rfl

theorem skipBr_norm_open {c : Char} (cs : List Char) (d : Nat)
    (h : c = '{' ∨ c = '[') :
    skipBr (c :: cs) d BrMode.norm = mapPre [c] (skipBr cs (d + 1) BrMode.norm) := by
  have hq : c ≠ '"' := by rcases h with h | h <;> subst h <;> decide
  rw [skipBr.eq_def]
  dsimp only
  rw [if_neg hq, if_pos h]
  rfl

theorem skipBr_norm_close_deep {c : Char} (cs : List Char) (d : Nat)
    (h : c = '}' ∨ c = ']') (hd : 2 ≤ d) :
    skipBr (c :: cs) d BrMode.norm = mapPre [c] (skipBr cs (d - 1) BrMode.norm) := by
  have hq : c ≠ '"' := by rcases h with h | h <;> subst h <;> decide
  have ho : ¬(c = '{' ∨ c = '[') := by rcases h with h | h <;> subst h <;> decide
  rw [skipBr.eq_def]
  dsimp only
  rw [if_neg hq, if_neg ho, if_pos h, if_neg (by omega)]
  rfl

theorem skipBr_norm_close_one {c : Char} (cs : List Char)
    (h : c = '}' ∨ c = ']') :
    skipBr (c :: cs) 1 BrMode.norm = some ([c], cs) := by
  have hq : c ≠ '"' := by rcases h with h | h <;> subst h <;> decide
  have ho : ¬(c = '{' ∨ c = '[') := by rcases h with h | h <;> subst h <;> decide
  rw [skipBr.eq_def]
  dsimp only
  rw [if_neg hq, if_neg ho, if_pos h, if_pos (by omega)]

theorem skipBr_instr_plain {c : Char} (cs : List Char) (d : Nat)
    (h1 : c ≠ '\\') (h2 : c ≠ '"') :
    skipBr (c :: cs) d BrMode.instr = mapPre [c] (skipBr cs d BrMode.instr) := by
  rw [skipBr.eq_def]
  dsimp only
  rw [if_neg h1, if_neg h2]
  rfl

theorem skipBr_instr_quote (cs : List Char) (d : Nat) :
    skipBr ('"' :: cs) d BrMode.instr = mapPre ['"'] (skipBr cs d BrMode.norm) := by
  rw [skipBr.eq_def]
  dsimp only
  rw [if_neg (by decide), if_pos rfl]
  rfl

theorem skipBr_instr_esc (c : Char) (cs : List Char) (d : Nat) :
    skipBr ('\\' :: c :: cs) d BrMode.instr = mapPre ['\\', c] (skipBr cs d BrMode.instr) := by
  rw [skipBr.eq_def]
  dsimp only
  rw [if_pos rfl]
  rw [skipBr.eq_def]
  dsimp only
  cases skipBr cs d BrMode.instr with
  | none => rfl
  | some p => rfl

theorem skipBr_append (cs : List Char) : ∀ d m v r, skipBr cs d m = some (v, r) → v ++ r = cs := by
  induction cs with
  | nil =>
    intro d m v r h
    exact Option.noConfusion h
  | cons c cs ih =>
    intro d m v r h
    rw [skipBr.eq_def] at h
    cases m with
    | esc =>
      dsimp only at h
      rw [Option.map_eq_some'] at h
      obtain ⟨⟨v1, r1⟩, h1, h2⟩ := h
      simp only [Prod.mk.injEq] at h2
      obtain ⟨hv, hr⟩ := h2
      subst hv
      subst hr
      rw [List.cons_append, ih _ _ _ _ h1]
    | instr =>
      dsimp only at h
      split_ifs at h <;>
      · rw [Option.map_eq_some'] at h
        obtain ⟨⟨v1, r1⟩, h1, h2⟩ := h
        simp only [Prod.mk.injEq] at h2
        obtain ⟨hv, hr⟩ := h2
        subst hv
        subst hr
        rw [List.cons_append, ih _ _ _ _ h1]
    | norm =>
      dsimp only at h
      split_ifs at h
      case pos =>
        rw [Option.map_eq_some'] at h
        obtain ⟨⟨v1, r1⟩, h1, h2⟩ := h
        simp only [Prod.mk.injEq] at h2
        obtain ⟨hv, hr⟩ := h2
        subst hv
        subst hr
        rw [List.cons_append, ih _ _ _ _ h1]
      case pos =>
        rw [Option.map_eq_some'] at h
        obtain ⟨⟨v1, r1⟩, h1, h2⟩ := h
        simp only [Prod.mk.injEq] at h2
        obtain ⟨hv, hr⟩ := h2
        subst hv
        subst hr
        rw [List.cons_append, ih _ _ _ _ h1]
      case pos =>
        simp only [Option.some.injEq, Prod.mk.injEq] at h
        obtain ⟨hv, hr⟩ := h
        subst hv
        subst hr
        rfl
      case neg =>
        rw [Option.map_eq_some'] at h
        obtain ⟨⟨v1, r1⟩, h1, h2⟩ := h
        simp only [Prod.mk.injEq] at h2
        obtain ⟨hv, hr⟩ := h2
        subst hv
        subst hr
        rw [List.cons_append, ih _ _ _ _ h1]
      case neg =>
        rw [Option.map_eq_some'] at h
        obtain ⟨⟨v1, r1⟩, h1, h2⟩ := h
        simp only [Prod.mk.injEq] at h2
        obtain ⟨hv, hr⟩ := h2
        subst hv
        subst hr
        rw [List.cons_append, ih _ _ _ _ h1]

theorem skipBr_none (cs : List Char) : ∀ d m, '}' ∉ cs → ']' ∉ cs →
    skipBr cs d m = none := by
  induction cs with
  | nil =>
    intro d m _ _
    rfl
  | cons c cs ih =>
    intro d m h1 h2
    have hc1 : c ≠ '}' := fun h => h1 (by simp [h])
    have hc2 : c ≠ ']' := fun h => h2 (by simp [h])
    have ht1 : '}' ∉ cs := fun h => h1 (by simp [h])
    have ht2 : ']' ∉ cs := fun h => h2 (by simp [h])
    rw [skipBr.eq_def]
    cases m with
    | esc =>
      dsimp only
      rw [ih _ _ ht1 ht2]
      rfl
    | instr =>
      dsimp only
      split_ifs <;> (rw [ih _ _ ht1 ht2]; rfl)
    | norm =>
      dsimp only
      split_ifs with g1 g2 g3 g4
      · rw [ih _ _ ht1 ht2]
        rfl
      · rw [ih _ _ ht1 ht2]
        rfl
      · exact absurd g3 (by simp [hc1, hc2])
      · exact absurd g3 (by simp [hc1, hc2])
      · rw [ih _ _ ht1 ht2]
        rfl

end RcApi

namespace RcApi

theorem bareOK_not_special {c : Char} (hc : bareOK c = true) :
    c ≠ '"' ∧ ¬(c = '{' ∨ c = '[') ∧ ¬(c = '}' ∨ c = ']') := by
  obtain ⟨h1, h2, h3, h4, h5, h6, _⟩ := bareOK_split hc
  exact ⟨h4, by simp [h5, h6], by simp [h2, h3]⟩

theorem skipBr_over_plain (l : List Char) :
    ∀ rest d, (∀ c ∈ l, bareOK c = true ∨ c = ':' ∨ c = ',') →
      skipBr (l ++ rest) d BrMode.norm = mapPre l (skipBr rest d BrMode.norm) := by
  induction l with
  | nil =>
    intro rest d _
    rw [List.nil_append, mapPre_nil]
  | cons c l ih =>
    intro rest d hl
    have hspec : c ≠ '"' ∧ ¬(c = '{' ∨ c = '[') ∧ ¬(c = '}' ∨ c = ']') := by
      rcases hl c (by simp) with h | h | h
      · exact bareOK_not_special h
      · subst h
        refine ⟨by decide, by decide, by decide⟩
      · subst h
        refine ⟨by decide, by decide, by decide⟩
    obtain ⟨hq, ho, hc3⟩ := hspec
    rw [List.cons_append, skipBr_norm_plain _ _ hq ho hc3,
      ih rest d (fun x hx => hl x (List.mem_cons_of_mem c hx)), mapPre_mapPre]
    rfl

theorem keyOK_rawStrOK (k : List Char) (h : k.all keyOK = true) : rawStrOK k = true := by
  induction k with
  | nil => rfl
  | cons c k ih =>
    simp only [List.all_cons, Bool.and_eq_true] at h
    obtain ⟨hc, hk⟩ := h
    simp only [keyOK, Bool.not_eq_eq_eq_not, Bool.not_true, Bool.or_eq_false_iff,
      decide_eq_false_iff_not] at hc
    rw [rawStrOK.eq_def]
    dsimp only
    rw [if_neg hc.1, if_neg hc.2]
    exact ih hk

theorem skipBr_instr_string_aux (n : Nat) : ∀ (s : List Char), s.length ≤ n →
    rawStrOK s = true → ∀ rest d,
      skipBr (s ++ '"' :: rest) d BrMode.instr
        = mapPre (s ++ ['"']) (skipBr rest d BrMode.norm) := by
  induction n with
  | zero =>
    intro s hlen _ rest d
    have hnil : s = [] := List.eq_nil_of_length_eq_zero (by omega)
    subst hnil
    rw [List.nil_append, skipBr_instr_quote, List.nil_append]
  | succ n ih =>
    intro s hlen hraw rest d
    cases s with
    | nil => rw [List.nil_append, skipBr_instr_quote, List.nil_append]
    | cons c s' =>
      rw [rawStrOK.eq_def] at hraw
      dsimp only at hraw
      split_ifs at hraw with hq hb
      · subst hb
        cases s' with
        | nil => exact absurd hraw (by decide)
        | cons d2 s'' =>
          rw [List.cons_append, List.cons_append, skipBr_instr_esc,
            ih s'' (by simp at hlen; omega) hraw rest d, mapPre_mapPre]
          rfl
      · rw [List.cons_append, skipBr_instr_plain _ _ hb hq,
          ih s' (by simp at hlen; omega) hraw rest d, mapPre_mapPre]
        rfl

theorem skipBr_instr_string {s : List Char} (h : rawStrOK s = true) (rest : List Char) (d : Nat) :
    skipBr (s ++ '"' :: rest) d BrMode.instr
      = mapPre (s ++ ['"']) (skipBr rest d BrMode.norm) :=
  skipBr_instr_string_aux s.length s (by omega) h rest d

end RcApi

namespace RcApi

theorem renderTailM_nil : renderTailM JMembers.nil = [] := rfl

theorem renderTailM_cons (k : List Char) (v : JVal) (ms : JMembers) :
    renderTailM (JMembers.cons k v ms) = ',' :: renderM (JMembers.cons k v ms) := rfl

theorem renderTailE_nil : renderTailE JElems.nil = [] := rfl

theorem renderTailE_cons (v : JVal) (es : JElems) :
    renderTailE (JElems.cons v es) = ',' :: renderE (JElems.cons v es) := rfl

mutual

theorem skipBrV : ∀ (v : JVal), wfV v = true → ∀ (rest : List Char) (d : Nat), 1 ≤ d →
    skipBr (renderV v ++ rest) d BrMode.norm = mapPre (renderV v) (skipBr rest d BrMode.norm)
  | JVal.lit l, hwf, rest, d, _ => by
    rw [wfV.eq_def] at hwf
    dsimp only at hwf
    simp only [Bool.and_eq_true] at hwf
    show skipBr (l ++ rest) d BrMode.norm = mapPre l (skipBr rest d BrMode.norm)
    refine skipBr_over_plain l rest d (fun c hc => Or.inl ?_)
    have h2 := hwf.2
    rw [List.all_eq_true] at h2
    exact h2 c hc
  | JVal.str s, hwf, rest, d, _ => by
    rw [wfV.eq_def] at hwf
    dsimp only at hwf
    have hshape : renderV (JVal.str s) ++ rest = '"' :: (s ++ '"' :: rest) := by
      show ('"' :: (s ++ ['"'])) ++ rest = _
      simp
    have hself : renderV (JVal.str s) = '"' :: (s ++ ['"']) := rfl
    rw [hshape, skipBr_norm_quote, skipBr_instr_string hwf rest d, mapPre_mapPre, hself]
    rfl
  | JVal.obj ms, hwf, rest, d, hd => by
    rw [wfV.eq_def] at hwf
    dsimp only at hwf
    have hshape : renderV (JVal.obj ms) ++ rest = '{' :: (renderM ms ++ ('}' :: rest)) := by
      show ('{' :: (renderM ms ++ ['}'])) ++ rest = _
      simp
    have hself : renderV (JVal.obj ms) = '{' :: (renderM ms ++ ['}']) := rfl
    rw [hshape, skipBr_norm_open _ _ (Or.inl rfl),
      skipBrM ms hwf ('}' :: rest) (d + 1) (by omega),
      skipBr_norm_close_deep _ _ (Or.inl rfl) (by omega), Nat.add_sub_cancel,
      mapPre_mapPre, mapPre_mapPre, hself]
    simp
  | JVal.arr es, hwf, rest, d, hd => by
    rw [wfV.eq_def] at hwf
    dsimp only at hwf
    have hshape : renderV (JVal.arr es) ++ rest = '[' :: (renderE es ++ (']' :: rest)) := by
      show ('[' :: (renderE es ++ [']'])) ++ rest = _
      simp
    have hself : renderV (JVal.arr es) = '[' :: (renderE es ++ [']']) := rfl
    rw [hshape, skipBr_norm_open _ _ (Or.inr rfl),
      skipBrE es hwf (']' :: rest) (d + 1) (by omega),
      skipBr_norm_close_deep _ _ (Or.inr rfl) (by omega), Nat.add_sub_cancel,
      mapPre_mapPre, mapPre_mapPre, hself]
    simp

theorem skipBrM : ∀ (ms : JMembers), wfM ms = true → ∀ (rest : List Char) (d : Nat), 1 ≤ d →
    skipBr (renderM ms ++ rest) d BrMode.norm = mapPre (renderM ms) (skipBr rest d BrMode.norm)
  | JMembers.nil, _, rest, d, _ => by
    show skipBr ([] ++ rest) d BrMode.norm = mapPre [] (skipBr rest d BrMode.norm)
    rw [List.nil_append, mapPre_nil]
  | JMembers.cons k v ms, hwf, rest, d, hd => by
    rw [wfM.eq_def] at hwf
    dsimp only at hwf
    simp only [Bool.and_eq_true] at hwf
    obtain ⟨⟨hk, hv⟩, hms⟩ := hwf
    have hraw : rawStrOK k = true := keyOK_rawStrOK k hk
    have hshape : renderM (JMembers.cons k v ms) ++ rest
        = '"' :: (k ++ '"' :: (':' :: (renderV v ++ (renderTailM ms ++ rest)))) := by
      show (('"' :: k ++ '"' :: ':' :: renderV v) ++ renderTailM ms) ++ rest = _
      simp
    have hself : renderM (JMembers.cons k v ms)
        = ('"' :: k ++ '"' :: ':' :: renderV v) ++ renderTailM ms := rfl
    rw [hshape, skipBr_norm_quote, skipBr_instr_string hraw _ d,
      skipBr_norm_plain _ _ (by decide) (by decide) (by decide),
      skipBrV v hv _ d hd]
    cases ms with
    | nil =>
      rw [renderTailM_nil, List.nil_append, mapPre_mapPre, mapPre_mapPre, mapPre_mapPre, hself]
      congr 1
      simp [renderTailM_nil]
    | cons k2 v2 ms2 =>
      rw [renderTailM_cons, List.cons_append,
        skipBr_norm_plain _ _ (by decide) (by decide) (by decide),
        skipBrM (JMembers.cons k2 v2 ms2) hms rest d hd,
        mapPre_mapPre, mapPre_mapPre, mapPre_mapPre, mapPre_mapPre, mapPre_mapPre, hself]
      congr 1
      rw [renderTailM_cons]
      simp

theorem skipBrE : ∀ (es : JElems), wfE es = true → ∀ (rest : List Char) (d : Nat), 1 ≤ d →
    skipBr (renderE es ++ rest) d BrMode.norm = mapPre (renderE es) (skipBr rest d BrMode.norm)
  | JElems.nil, _, rest, d, _ => by
    show skipBr ([] ++ rest) d BrMode.norm = mapPre [] (skipBr rest d BrMode.norm)
    rw [List.nil_append, mapPre_nil]
  | JElems.cons v es, hwf, rest, d, hd => by
    rw [wfE.eq_def] at hwf
    dsimp only at hwf
    simp only [Bool.and_eq_true] at hwf
    obtain ⟨hv, hes⟩ := hwf
    have hshape : renderE (JElems.cons v es) ++ rest
        = renderV v ++ (renderTailE es ++ rest) := by
      show (renderV v ++ renderTailE es) ++ rest = _
      simp
    have hself : renderE (JElems.cons v es) = renderV v ++ renderTailE es := rfl
    rw [hshape, skipBrV v hv _ d hd]
    cases es with
    | nil =>
      rw [renderTailE_nil, List.nil_append, hself]
      congr 1
      simp [renderTailE_nil]
    | cons v2 es2 =>
      rw [renderTailE_cons, List.cons_append,
        skipBr_norm_plain _ _ (by decide) (by decide) (by decide),
        skipBrE (JElems.cons v2 es2) hes rest d hd,
        mapPre_mapPre, mapPre_mapPre, hself]
      congr 1
      rw [renderTailE_cons]
      simp

end

end RcApi

namespace RcApi

theorem skipValue_quote (cs : List Char) :
    skipValue ('"' :: cs) = (skipString cs).map fun p => ('"' :: p.1 ++ ['"'], p.2) := rfl

theorem skipValue_brace (cs : List Char) :
    skipValue ('{' :: cs) = (skipBr cs 1 BrMode.norm).map fun p => ('{' :: p.1, p.2) := rfl

theorem skipValue_bracket (cs : List Char) :
    skipValue ('[' :: cs) = (skipBr cs 1 BrMode.norm).map fun p => ('[' :: p.1, p.2) := rfl

theorem skipValue_other {c : Char} (cs : List Char)
    (h1 : c ≠ '"') (h2 : c ≠ '{') (h3 : c ≠ '[') :
    skipValue (c :: cs) = some (skipBare (c :: cs)) := by
  rw [skipValue.eq_def]
  split
  · rename_i heq
    rw [List.cons.injEq] at heq
    exact absurd heq.1 h1
  · rename_i heq
    rw [List.cons.injEq] at heq
    exact absurd heq.1 h2
  · rename_i heq
    rw [List.cons.injEq] at heq
    exact absurd heq.1 h3
  · rfl

theorem skipValue_nil : skipValue [] = some ([], []) := rfl

theorem skipValue_append (cs : List Char) :
    ∀ v r, skipValue cs = some (v, r) → v ++ r = cs := by
  intro v r h
  rw [skipValue.eq_def] at h
  split at h
  · rename_i rest
    rw [Option.map_eq_some'] at h
    obtain ⟨⟨s1, r1⟩, h1, h2⟩ := h
    simp only [Prod.mk.injEq] at h2
    obtain ⟨hv, hr⟩ := h2
    subst hv
    subst hr
    rw [skipString_append h1]
    simp
  · rename_i rest
    rw [Option.map_eq_some'] at h
    obtain ⟨⟨v1, r1⟩, h1, h2⟩ := h
    simp only [Prod.mk.injEq] at h2
    obtain ⟨hv, hr⟩ := h2
    subst hv
    subst hr
    rw [List.cons_append, skipBr_append _ _ _ _ _ h1]
  · rename_i rest
    rw [Option.map_eq_some'] at h
    obtain ⟨⟨v1, r1⟩, h1, h2⟩ := h
    simp only [Prod.mk.injEq] at h2
    obtain ⟨hv, hr⟩ := h2
    subst hv
    subst hr
    rw [List.cons_append, skipBr_append _ _ _ _ _ h1]
  · simp only [Option.some.injEq] at h
    have hb := skipBare_append cs
    rw [h] at hb
    exact hb

theorem skipValue_render (v : JVal) (hwf : wfV v = true) :
    ∀ rest, delimHead rest = true → skipValue (renderV v ++ rest) = some (renderV v, rest) := by
  intro rest hdelim
  cases v with
  | lit l =>
    rw [wfV.eq_def] at hwf
    dsimp only at hwf
    simp only [Bool.and_eq_true] at hwf
    obtain ⟨hne, hall⟩ := hwf
    rw [List.all_eq_true] at hall
    cases l with
    | nil => simp at hne
    | cons c l' =>
      obtain ⟨_, _, _, h4, h5, h6, _⟩ := bareOK_split (hall c (by simp))
      have hv : renderV (JVal.lit (c :: l')) = c :: l' := rfl
      rw [hv, List.cons_append, skipValue_other _ h4 h5 h6, ← List.cons_append,
        skipBare_exact (c :: l') rest (fun x hx => hall x hx) hdelim]
  | str s =>
    rw [wfV.eq_def] at hwf
    dsimp only at hwf
    have hshape : renderV (JVal.str s) ++ rest = '"' :: (s ++ '"' :: rest) := by
      show ('"' :: (s ++ ['"'])) ++ rest = _
      simp
    have hself : renderV (JVal.str s) = '"' :: (s ++ ['"']) := rfl
    rw [hshape, skipValue_quote, skipString_closes rest hwf, hself]
    rfl
  | obj ms =>
    rw [wfV.eq_def] at hwf
    dsimp only at hwf
    have hshape : renderV (JVal.obj ms) ++ rest = '{' :: (renderM ms ++ ('}' :: rest)) := by
      show ('{' :: (renderM ms ++ ['}'])) ++ rest = _
      simp
    have hself : renderV (JVal.obj ms) = '{' :: (renderM ms ++ ['}']) := rfl
    rw [hshape, skipValue_brace, skipBrM ms hwf ('}' :: rest) 1 (by omega),
      skipBr_norm_close_one _ (Or.inl rfl), hself]
    rfl
  | arr es =>
    rw [wfV.eq_def] at hwf
    dsimp only at hwf
    have hshape : renderV (JVal.arr es) ++ rest = '[' :: (renderE es ++ (']' :: rest)) := by
      show ('[' :: (renderE es ++ [']'])) ++ rest = _
      simp
    have hself : renderV (JVal.arr es) = '[' :: (renderE es ++ [']']) := rfl
    rw [hshape, skipValue_bracket, skipBrE es hwf (']' :: rest) 1 (by omega),
      skipBr_norm_close_one _ (Or.inr rfl), hself]
    rfl

end RcApi

namespace RcApi

theorem skipWS_renderV (v : JVal) (hwf : wfV v = true) (rest : List Char) :
    skipWS (renderV v ++ rest) = renderV v ++ rest := by
  cases v with
  | lit l =>
    rw [wfV.eq_def] at hwf
    dsimp only at hwf
    simp only [Bool.and_eq_true] at hwf
    obtain ⟨hne, hall⟩ := hwf
    rw [List.all_eq_true] at hall
    cases l with
    | nil => simp at hne
    | cons c l' =>
      obtain ⟨_, _, _, _, _, _, h7⟩ := bareOK_split (hall c (by simp))
      have hv : renderV (JVal.lit (c :: l')) = c :: l' := rfl
      rw [hv, List.cons_append, skipWS_not_ws _ h7]
  | str s =>
    have hv : renderV (JVal.str s) ++ rest = '"' :: (s ++ ['"'] ++ rest) := by
      show ('"' :: (s ++ ['"'])) ++ rest = _
      simp
    rw [hv, skipWS_not_ws _ (by decide)]
  | obj ms =>
    have hv : renderV (JVal.obj ms) ++ rest = '{' :: (renderM ms ++ ['}'] ++ rest) := by
      show ('{' :: (renderM ms ++ ['}'])) ++ rest = _
      simp
    rw [hv, skipWS_not_ws _ (by decide)]
  | arr es =>
    have hv : renderV (JVal.arr es) ++ rest = '[' :: (renderE es ++ [']'] ++ rest) := by
      show ('[' :: (renderE es ++ [']'])) ++ rest = _
      simp
    rw [hv, skipWS_not_ws _ (by decide)]

theorem nextFieldAt_brace (r : List Char) : nextFieldAt ('}' :: r) = some none := rfl

theorem nextFieldAt_bracket (r : List Char) : nextFieldAt (']' :: r) = some none := rfl

theorem nextFieldAt_quote (r0 : List Char) :
    nextFieldAt ('"' :: r0) = nextFieldName (skipString r0) := rfl

theorem nextFieldName_some (name r1 : List Char) :
    nextFieldName (some (name, r1)) = nextFieldColon name (skipWS r1) := rfl

theorem nextFieldColon_colon (name r2 : List Char) :
    nextFieldColon name (':' :: r2) = nextFieldValue name (skipValue (skipWS r2)) := rfl

theorem nextFieldValue_some (name v r3 : List Char) :
    nextFieldValue name (some (v, r3)) = some (some (name, v, nextFieldComma (skipWS r3))) := rfl

theorem nextFieldComma_comma (r : List Char) : nextFieldComma (',' :: r) = r := rfl

theorem nextFieldComma_brace (r : List Char) : nextFieldComma ('}' :: r) = '}' :: r := rfl

theorem nextField_close (r : List Char) : nextField ('}' :: r) = some none := by
  rw [nextField, skipWS_not_ws _ (by decide), nextFieldAt_brace]

theorem pair_shape (k : List Char) (v : JVal) (sep : List Char) :
    ('"' :: k ++ '"' :: ':' :: renderV v) ++ sep
      = '"' :: (k ++ '"' :: (':' :: (renderV v ++ sep))) := by
  simp

theorem nextField_pair (k : List Char) (v : JVal) (sep : List Char)
    (hk : k.all keyOK = true) (hv : wfV v = true) (hsep : delimHead sep = true)
    (hws : isWS (sep.headD ',') = false) :
    nextField (('"' :: k ++ '"' :: ':' :: renderV v) ++ sep)
      = some (some (k, renderV v, nextFieldComma sep)) := by
  rw [pair_shape, nextField, skipWS_not_ws _ (by decide), nextFieldAt_quote,
    skipString_closes _ (keyOK_rawStrOK k hk), nextFieldName_some,
    skipWS_not_ws _ (by decide), nextFieldColon_colon, skipWS_renderV v hv,
    skipValue_render v hv sep hsep, nextFieldValue_some]
  cases sep with
  | nil => rfl
  | cons c r =>
    simp only [List.headD_cons] at hws
    rw [skipWS_not_ws _ hws]

end RcApi

namespace RcApi

theorem findFieldAux_succ (fuel : Nat) (cs name : List Char) :
    findFieldAux (fuel + 1) cs name
      = match nextField cs with
        | none => none
        | some none => some none
        | some (some (n, v, rest)) =>
          if n = name then some (some v) else findFieldAux fuel rest name := rfl

theorem lenM_le_render : ∀ (ms : JMembers),
    lenM ms ≤ (renderM ms).length ∧ lenM ms ≤ (renderTailM ms).length
  | JMembers.nil => ⟨Nat.le_refl 0, Nat.le_refl 0⟩
  | JMembers.cons k v ms => by
    have ih := lenM_le_render ms
    have h1 : renderM (JMembers.cons k v ms)
        = ('"' :: k ++ '"' :: ':' :: renderV v) ++ renderTailM ms := rfl
    have h2 : renderTailM (JMembers.cons k v ms)
        = ',' :: (('"' :: k ++ '"' :: ':' :: renderV v) ++ renderTailM ms) := rfl
    have h3 : lenM (JMembers.cons k v ms) = lenM ms + 1 := rfl
    constructor
    · rw [h1, h3, List.length_append]
      have h4 : 1 ≤ ('"' :: k ++ '"' :: ':' :: renderV v).length := by
        simp
      omega
    · rw [h2, h3, List.length_cons, List.length_append]
      omega

theorem findFieldAux_render : ∀ (fuel : Nat) (ms : JMembers) (name rest : List Char),
    wfM ms = true → lenM ms < fuel →
    findFieldAux fuel (renderM ms ++ '}' :: rest) name
      = some ((lookupMem name ms).map renderV) := by
  intro fuel
  induction fuel with
  | zero =>
    intro ms name rest _ hlen
    omega
  | succ fuel ih =>
    intro ms name rest hwf hlen
    cases ms with
    | nil =>
      have hsh : renderM JMembers.nil ++ '}' :: rest = '}' :: rest := by
        show [] ++ '}' :: rest = _
        rw [List.nil_append]
      rw [hsh, findFieldAux_succ, nextField_close]
      rfl
    | cons k v ms' =>
      rw [wfM.eq_def] at hwf
      dsimp only at hwf
      simp only [Bool.and_eq_true] at hwf
      obtain ⟨⟨hk, hv⟩, hms'⟩ := hwf
      have hlook : lookupMem name (JMembers.cons k v ms')
          = if k = name then some v else lookupMem name ms' := rfl
      cases ms' with
      | nil =>
        have hsh : renderM (JMembers.cons k v JMembers.nil) ++ '}' :: rest
            = ('"' :: k ++ '"' :: ':' :: renderV v) ++ ('}' :: rest) := by
          show (('"' :: k ++ '"' :: ':' :: renderV v) ++ renderTailM JMembers.nil)
              ++ '}' :: rest = _
          rw [renderTailM_nil, List.append_nil]
        rw [hsh, findFieldAux_succ,
          nextField_pair k v ('}' :: rest) hk hv rfl rfl]
        dsimp only
        rw [hlook]
        by_cases hkn : k = name
        · rw [if_pos hkn, if_pos hkn]
          rfl
        · rw [if_neg hkn, if_neg hkn, nextFieldComma_brace]
          have h0 := ih JMembers.nil name rest (by rfl) (by
            have : lenM (JMembers.cons k v JMembers.nil) < fuel + 1 := hlen
            have h1 : lenM (JMembers.cons k v JMembers.nil) = 1 := rfl
            have h2 : lenM JMembers.nil = 0 := rfl
            omega)
          have hsh2 : renderM JMembers.nil ++ '}' :: rest = '}' :: rest := by
            show [] ++ '}' :: rest = _
            rw [List.nil_append]
          rw [hsh2] at h0
          rw [h0]
      | cons k2 v2 ms2 =>
        have hsh : renderM (JMembers.cons k v (JMembers.cons k2 v2 ms2)) ++ '}' :: rest
            = ('"' :: k ++ '"' :: ':' :: renderV v)
              ++ (',' :: (renderM (JMembers.cons k2 v2 ms2) ++ '}' :: rest)) := by
          show (('"' :: k ++ '"' :: ':' :: renderV v)
              ++ renderTailM (JMembers.cons k2 v2 ms2)) ++ '}' :: rest = _
          rw [renderTailM_cons]
          simp
        rw [hsh, findFieldAux_succ,
          nextField_pair k v (',' :: (renderM (JMembers.cons k2 v2 ms2) ++ '}' :: rest))
            hk hv rfl rfl]
        dsimp only
        rw [hlook, nextFieldComma_comma]
        by_cases hkn : k = name
        · rw [if_pos hkn, if_pos hkn]
          rfl
        · rw [if_neg hkn, if_neg hkn]
          exact ih (JMembers.cons k2 v2 ms2) name rest hms' (by
            have h1 : lenM (JMembers.cons k v (JMembers.cons k2 v2 ms2))
                = lenM (JMembers.cons k2 v2 ms2) + 1 := rfl
            omega)

/-- C2: field location over a rendered JSON object matches only `"name":value`
pairs at the object's own nesting level: the result is exactly the first
top-level member whose raw key text equals the target name under
case-sensitive, exact-length comparison, so a field of the same name nested
inside a sub-object or sub-array value (which is skipped whole) is never
matched. -/
theorem c2_top_level_field_location (ms : JMembers) (name : List Char)
    (hwf : wfM ms = true) :
    findField (renderM ms ++ ['}']) name = some ((lookupMem name ms).map renderV) := by
  rw [findField]
  have hsh : renderM ms ++ ['}'] = renderM ms ++ '}' :: [] := rfl
  rw [hsh]
  exact findFieldAux_render ((renderM ms ++ '}' :: []).length + 1) ms name [] hwf (by
    rw [List.length_append]
    have := (lenM_le_render ms).1
    omega)

end RcApi

namespace RcApi

theorem nextField_def (cs : List Char) : nextField cs = nextFieldAt (skipWS cs) := rfl

theorem skipWS_isSuffix (cs : List Char) : (skipWS cs).IsSuffix cs := by
  obtain ⟨t, ht⟩ := skipWS_suffix cs
  exact ⟨t, ht.symm⟩

theorem nextFieldComma_isSuffix (l : List Char) : (nextFieldComma l).IsSuffix l := by
  rw [nextFieldComma.eq_def]
  split
  · exact ⟨[','], rfl⟩
  · exact List.suffix_rfl

theorem nextField_suffix (cs : List Char) :
    ∀ n v r, nextField cs = some (some (n, v, r)) → r.IsSuffix cs := by
  intro n v r h
  rw [nextField_def] at h
  have hS0 : (skipWS cs).IsSuffix cs := skipWS_isSuffix cs
  rw [nextFieldAt.eq_def] at h
  split at h
  · exact absurd h (by simp)
  · exact absurd h (by simp)
  · rename_i r0 heq
    cases hss : skipString r0 with
    | none =>
      rw [hss] at h
      exact absurd h (by simp [nextFieldName])
    | some p =>
      obtain ⟨name, r1⟩ := p
      rw [hss, nextFieldName_some] at h
      have hr1 : r1.IsSuffix cs := by
        have h1 : r0.IsSuffix cs := by
          refine List.IsSuffix.trans ?_ hS0
          rw [heq]
          exact ⟨['"'], rfl⟩
        exact List.IsSuffix.trans ⟨name ++ ['"'], by simpa using (skipString_append hss).symm⟩ h1
      rw [nextFieldColon.eq_def] at h
      split at h
      · rename_i r2 heq2
        cases hsv : skipValue (skipWS r2) with
        | none =>
          rw [hsv] at h
          exact absurd h (by simp [nextFieldValue])
        | some q =>
          obtain ⟨v0, r3⟩ := q
          rw [hsv, nextFieldValue_some] at h
          simp only [Option.some.injEq, Prod.mk.injEq] at h
          obtain ⟨_, _, hr⟩ := h
          subst hr
          have hr2 : r2.IsSuffix cs := by
            refine List.IsSuffix.trans ?_ (List.IsSuffix.trans (skipWS_isSuffix r1) hr1)
            rw [heq2]
            exact ⟨[':'], rfl⟩
          have hr3 : r3.IsSuffix cs :=
            List.IsSuffix.trans ⟨v0, skipValue_append _ _ _ hsv⟩
              (List.IsSuffix.trans (skipWS_isSuffix r2) hr2)
          exact List.IsSuffix.trans
            (List.IsSuffix.trans (nextFieldComma_isSuffix (skipWS r3)) (skipWS_isSuffix r3)) hr3
      · exact absurd h (by simp)
  · exact absurd h (by simp)

/-- C3: the end pointer is a hard boundary for every scanner operation: each
skip/locate operation returns a remainder that is a suffix of its input (the
cursor never moves past the end), an unterminated string or unbalanced
bracket run is reported as failure rather than scanned past the end, and a
wellformed value that spans exactly to the end pointer is located whole. -/
theorem c3_end_pointer_safety :
    (∀ cs v r, skipValue cs = some (v, r) → v ++ r = cs) ∧
    (∀ cs s r, skipString cs = some (s, r) → cs = s ++ '"' :: r) ∧
    (∀ cs d m v r, skipBr cs d m = some (v, r) → v ++ r = cs) ∧
    (∀ cs n v r, nextField cs = some (some (n, v, r)) → r.IsSuffix cs) ∧
    (∀ cs, '"' ∉ cs → skipString cs = none) ∧
    (∀ cs d m, '}' ∉ cs → ']' ∉ cs → skipBr cs d m = none) ∧
    (∀ v, wfV v = true → skipValue (renderV v) = some (renderV v, [])) := by
  refine ⟨skipValue_append, fun cs s r h => skipString_append h,
    fun cs d m v r h => skipBr_append cs d m v r h, nextField_suffix,
    fun cs h => skipString_none h, fun cs d m h1 h2 => skipBr_none cs d m h1 h2,
    fun v hwf => ?_⟩
  have h := skipValue_render v hwf [] rfl
  rwa [List.append_nil] at h

/-- Closed instances of the boundary-safety theorem: a value that spans
exactly to the end pointer is located whole, an unterminated string fails,
bare-literal consumption respects the delimiter, and unbalanced brackets
fail. -/
theorem c3_end_pointer_safety_witness :
    ("123".data ++ '}' :: [] = "123\x7d".data) ∧
    skipString ("abc".data) = none ∧
    skipBr ("xy".data) 1 BrMode.norm = none ∧
    skipValue (renderV (JVal.lit ("7".data))) = some (renderV (JVal.lit ("7".data)), []) := by
  refine ⟨?_, ?_, ?_, ?_⟩
  · exact c3_end_pointer_safety.1 ("123\x7d".data) ("123".data) ('}' :: []) (by decide)
  · exact c3_end_pointer_safety.2.2.2.2.1 ("abc".data) (by decide)
  · exact c3_end_pointer_safety.2.2.2.2.2.1 ("xy".data) 1 BrMode.norm (by decide) (by decide)
  · exact c3_end_pointer_safety.2.2.2.2.2.2 (JVal.lit ("7".data)) (by decide)

/-- Closed instance of top-level field location: in
`{"a":{"id":1},"id":2}` the search for `id` finds the top-level value `2`,
never the `id` nested in the sub-object. -/
theorem c2_top_level_field_location_witness :
    findField (renderM c2Members ++ ['}']) ("id".data) = some (some ("2".data)) := by
  rw [c2_top_level_field_location c2Members ("id".data) (by decide)]
  rfl

end RcApi

/-! ## Proofs about the response envelope decoder -/

namespace RcApi

theorem parse_server_response_def (sr : rc_api_server_response_t) (fields : FieldTable) :
    rc_json_parse_server_response sr fields
      = if sr.http_status_code < 200 ∨ 299 < sr.http_status_code then
          (DecodeStatus.transportFailure, ⟨0, none⟩, fields)
        else parseEnvelopeAt fields (skipWS sr.body) := rfl

theorem parseEnvelopeAt_brace (fields : FieldTable) (bodyRest : List Char) :
    parseEnvelopeAt fields ('{' :: bodyRest)
      = parseEnvelopeSuccess fields bodyRest (findField bodyRest successName) := rfl

theorem parseEnvelopeSuccess_some (fields : FieldTable) (bodyRest : List Char)
    (sv : Option (List Char)) :
    parseEnvelopeSuccess fields bodyRest (some sv)
      = if sv = some falseChars then
          (DecodeStatus.semanticFailure, ⟨0, envelopeErrorMsg bodyRest⟩, fields)
        else parseEnvelopeFill fields (fillFields fields bodyRest) := rfl

/-- C1: for every response whose HTTP status is acceptable and whose JSON
object body carries the discriminator `"Success":false`, decoding returns a
semantic failure, populates only the envelope's error message (extracted
from the `Error` string field), and returns the endpoint field table exactly
as supplied, never attempting endpoint-specific field extraction. -/
theorem c1_discriminated_failure (sr : rc_api_server_response_t) (fields : FieldTable)
    (b : List Char)
    (hstatus1 : 200 ≤ sr.http_status_code) (hstatus2 : sr.http_status_code ≤ 299)
    (hbody : skipWS sr.body = '{' :: b)
    (hsuccess : findField b successName = some (some falseChars)) :
    rc_json_parse_server_response sr fields
      = (DecodeStatus.semanticFailure, ⟨0, envelopeErrorMsg b⟩, fields) := by
  rw [parse_server_response_def, if_neg (by omega), hbody, parseEnvelopeAt_brace,
    hsuccess, parseEnvelopeSuccess_some, if_pos rfl]

/-- Closed instance of the discriminated-failure scenario: the body
`{"Success":false,"Error":"Invalid API Token"}` with status 200 yields a
semantic failure whose only populated output is the error message
`Invalid API Token`, with the endpoint field table untouched. -/
theorem c1_discriminated_failure_witness :
    rc_json_parse_server_response ⟨c1Body, 200⟩ [("User".data, none)]
      = (DecodeStatus.semanticFailure, ⟨0, some ("Invalid API Token".data)⟩,
         [("User".data, none)]) := by
  have h := c1_discriminated_failure ⟨c1Body, 200⟩ [("User".data, none)] c1BodyRest
    (by decide) (by decide) (by rfl) (by decide)
  rw [h]
  decide

end RcApi

/-! ## Proofs about the URL/query builder -/

namespace RcApi

set_option maxRecDepth 8192 in
theorem encodeByte_spec (b : Nat) (hb : b < 256) :
    encodeByte b = if Char.ofNat b ∈ unreservedSpecChars then [Char.ofNat b]
      else ['%', hexUpperSpec (b / 16), hexUpperSpec (b % 16)] := by
  have h : ∀ x : Fin 256, encodeByte x.val
      = if Char.ofNat x.val ∈ unreservedSpecChars then [Char.ofNat x.val]
        else ['%', hexUpperSpec (x.val / 16), hexUpperSpec (x.val % 16)] := by decide
  exact h ⟨b, hb⟩

theorem urlEncode_nil : urlEncode [] = [] := rfl

theorem urlEncode_cons (c : Char) (s : List Char) :
    urlEncode (c :: s) = encodeByte (c.toNat % 256) ++ urlEncode s := by
  rw [urlEncode, urlEncode, List.flatMap_cons]

/-- C4: `rc_url_builder_append_encoded_str` appends the percent-encoded form
of its input, and percent-encoding maps every byte in the unreserved set
`[A-Za-z0-9-_.~]` to itself and every other byte to the three characters
`%XY` where `X`/`Y` are the byte's uppercase hexadecimal digits. -/
theorem c4_percent_encoding :
    (∀ (builder : rc_api_url_builder_t) (s : List Char),
      rc_url_builder_append_encoded_str builder s = rc_url_builder_append builder (urlEncode s)) ∧
    (∀ s : List Char,
      urlEncode s = s.flatMap fun c =>
        if Char.ofNat (c.toNat % 256) ∈ unreservedSpecChars then [Char.ofNat (c.toNat % 256)]
        else ['%', hexUpperSpec (c.toNat % 256 / 16), hexUpperSpec (c.toNat % 256 % 16)]) := by
  refine ⟨fun builder s => rfl, fun s => ?_⟩
  induction s with
  | nil => rfl
  | cons c s ih =>
    rw [urlEncode_cons, List.flatMap_cons, ih, encodeByte_spec _ (Nat.mod_lt _ (by omega))]

end RcApi

namespace RcApi

theorem append_ok (b : rc_api_url_builder_t) (data : List Char)
    (hres : b.result = true) (hcap : b.written.length + data.length ≤ b.capacity) :
    rc_url_builder_append b data = ⟨b.written ++ data, b.capacity, true⟩ := by
  rw [rc_url_builder_append, if_neg (by simp [hres]), if_neg (by omega)]

theorem append_poisoned (b : rc_api_url_builder_t) (data : List Char)
    (h : b.result = false) : rc_url_builder_append b data = b := by
  rw [rc_url_builder_append, if_pos h]

/-- C5: the standard authenticated request URL is the endpoint path followed
by exactly the two parameters `u=<username>` and `t=<api_token>`, with the
credential values percent-encoded; the first parameter is introduced by `?`
and the second by `&`. -/
theorem c5_dorequest_authenticated_url (api username api_token : List Char) (cap : Nat)
    (hq : '?' ∉ api)
    (hcap : api.length + 3 + (urlEncode username).length + 3
        + (urlEncode api_token).length ≤ cap) :
    rc_url_builder_finalize
        (rc_api_url_build_dorequest (rc_url_builder_init cap) api username api_token)
      = some (api ++ '?' :: 'u' :: '=' ::
          (urlEncode username ++ '&' :: 't' :: '=' :: urlEncode api_token)) := by
  have e1 : rc_url_builder_append (rc_url_builder_init cap) api = ⟨api, cap, true⟩ := by
    have h := append_ok ⟨[], cap, true⟩ api rfl (by simp; omega)
    simpa using h
  have hsep1 : paramSep ⟨api, cap, true⟩ = '?' := by
    simp [paramSep, hq]
  have e2a : rc_url_builder_append ⟨api, cap, true⟩ ('?' :: ['u'] ++ ['='])
      = ⟨api ++ '?' :: 'u' :: '=' :: [], cap, true⟩ := by
    have h := append_ok ⟨api, cap, true⟩ ('?' :: ['u'] ++ ['=']) rfl (by simp; omega)
    simpa using h
  have e2b : rc_url_builder_append ⟨api ++ '?' :: 'u' :: '=' :: [], cap, true⟩
        (urlEncode username)
      = ⟨(api ++ '?' :: 'u' :: '=' :: []) ++ urlEncode username, cap, true⟩ := by
    have h := append_ok ⟨api ++ '?' :: 'u' :: '=' :: [], cap, true⟩ (urlEncode username)
      rfl (by simp; omega)
    simpa using h
  have e2 : rc_url_builder_append_str_param ⟨api, cap, true⟩ ['u'] username
      = ⟨(api ++ '?' :: 'u' :: '=' :: []) ++ urlEncode username, cap, true⟩ := by
    rw [rc_url_builder_append_str_param, hsep1, e2a, rc_url_builder_append_encoded_str, e2b]
  have hsep2 : paramSep ⟨(api ++ '?' :: 'u' :: '=' :: []) ++ urlEncode username, cap, true⟩
      = '&' := by
    simp [paramSep]
  have e3a : rc_url_builder_append
        ⟨(api ++ '?' :: 'u' :: '=' :: []) ++ urlEncode username, cap, true⟩
        ('&' :: ['t'] ++ ['='])
      = ⟨((api ++ '?' :: 'u' :: '=' :: []) ++ urlEncode username)
          ++ '&' :: 't' :: '=' :: [], cap, true⟩ := by
    have h := append_ok ⟨(api ++ '?' :: 'u' :: '=' :: []) ++ urlEncode username, cap, true⟩
      ('&' :: ['t'] ++ ['=']) rfl (by simp; omega)
    simpa using h
  have e3b : rc_url_builder_append
        ⟨((api ++ '?' :: 'u' :: '=' :: []) ++ urlEncode username)
          ++ '&' :: 't' :: '=' :: [], cap, true⟩ (urlEncode api_token)
      = ⟨(((api ++ '?' :: 'u' :: '=' :: []) ++ urlEncode username)
          ++ '&' :: 't' :: '=' :: []) ++ urlEncode api_token, cap, true⟩ := by
    have h := append_ok ⟨((api ++ '?' :: 'u' :: '=' :: []) ++ urlEncode username)
          ++ '&' :: 't' :: '=' :: [], cap, true⟩ (urlEncode api_token) rfl (by simp; omega)
    simpa using h
  have e3 : rc_url_builder_append_str_param
        ⟨(api ++ '?' :: 'u' :: '=' :: []) ++ urlEncode username, cap, true⟩ ['t'] api_token
      = ⟨(((api ++ '?' :: 'u' :: '=' :: []) ++ urlEncode username)
          ++ '&' :: 't' :: '=' :: []) ++ urlEncode api_token, cap, true⟩ := by
    rw [rc_url_builder_append_str_param, hsep2, e3a, rc_url_builder_append_encoded_str, e3b]
  have e4 : rc_api_url_build_dorequest (rc_url_builder_init cap) api username api_token
      = ⟨(((api ++ '?' :: 'u' :: '=' :: []) ++ urlEncode username)
          ++ '&' :: 't' :: '=' :: []) ++ urlEncode api_token, cap, true⟩ := by
    rw [rc_api_url_build_dorequest, e1, e2, e3]
  rw [e4, rc_url_builder_finalize, if_pos rfl]
  simp

/-- Closed instance of the authenticated URL scenario: endpoint
`api/login`, username `john doe`, token `abc123` yield the query string
`api/login?u=john%20doe&t=abc123`, the space percent-encoded as `%20`. -/
theorem c5_dorequest_authenticated_url_witness :
    rc_url_builder_finalize
        (rc_api_url_build_dorequest (rc_url_builder_init 64)
          ("api/login".data) ("john doe".data) ("abc123".data))
      = some ("api/login?u=john%20doe&t=abc123".data) := by
  rw [c5_dorequest_authenticated_url ("api/login".data) ("john doe".data) ("abc123".data) 64
    (by decide) (by decide)]
  decide

/-- C6: the poisoned-builder discipline: an append that would exceed the
write bound poisons the builder and writes nothing, every later operation on
a poisoned builder (raw, encoded, or parameter appends, singly or in any
sequence) is a no-op leaving the state unchanged, and finalizing a poisoned
builder returns the null-equivalent sentinel. -/
theorem c6_poisoned_builder :
    (∀ (b : rc_api_url_builder_t) (data : List Char), b.result = true →
      b.capacity < b.written.length + data.length →
      rc_url_builder_append b data = ⟨b.written, b.capacity, false⟩) ∧
    (∀ (b : rc_api_url_builder_t) (op : BuilderOp), b.result = false →
      applyBuilderOp b op = b) ∧
    (∀ (b : rc_api_url_builder_t) (ops : List BuilderOp), b.result = false →
      applyBuilderOps b ops = b) ∧
    (∀ b : rc_api_url_builder_t, b.result = false → rc_url_builder_finalize b = none) := by
  have hop : ∀ (b : rc_api_url_builder_t) (op : BuilderOp), b.result = false →
      applyBuilderOp b op = b := by
    intro b op h
    cases op with
    | raw s => exact append_poisoned b s h
    | encoded s =>
      rw [applyBuilderOp, rc_url_builder_append_encoded_str, append_poisoned b _ h]
    | strParam p v =>
      rw [applyBuilderOp, rc_url_builder_append_str_param, append_poisoned b _ h,
        rc_url_builder_append_encoded_str, append_poisoned b _ h]
    | unumParam p v =>
      rw [applyBuilderOp, rc_url_builder_append_unum_param, append_poisoned b _ h]
    | numParam p v =>
      rw [applyBuilderOp, rc_url_builder_append_num_param, append_poisoned b _ h]
  refine ⟨?_, hop, ?_, ?_⟩
  · intro b data hres hover
    rw [rc_url_builder_append, if_neg (by simp [hres]), if_pos (by omega)]
  · intro b ops h
    induction ops with
    | nil => rfl
    | cons op ops ih =>
      rw [applyBuilderOps, List.foldl_cons, hop b op h]
      exact ih
  · intro b h
    rw [rc_url_builder_finalize, if_neg (by simp [h])]

/-- Closed instances of the poisoned-builder discipline: an overflowing
append poisons the builder, later appends are no-ops, and finalize fails. -/
theorem c6_poisoned_builder_witness :
    rc_url_builder_append ⟨[], 2, true⟩ ("abc".data) = ⟨[], 2, false⟩ ∧
    applyBuilderOps ⟨"ab".data, 2, false⟩
        [BuilderOp.raw ("d".data), BuilderOp.encoded ("e".data)] = ⟨"ab".data, 2, false⟩ ∧
    rc_url_builder_finalize ⟨"ab".data, 2, false⟩ = none := by
  refine ⟨?_, ?_, ?_⟩
  · exact c6_poisoned_builder.1 ⟨[], 2, true⟩ ("abc".data) rfl (by decide)
  · exact c6_poisoned_builder.2.2.1 ⟨"ab".data, 2, false⟩ _ rfl
  · exact c6_poisoned_builder.2.2.2 ⟨"ab".data, 2, false⟩ rfl

end RcApi

/-! ## Proofs about the arena buffer -/

namespace RcApi

theorem chunkPreserved_reserve (a : rc_api_buffer_t) (n : Nat) (i : Nat)
    (ch : rc_api_buffer_chunk_t) (h : a.chunks.get? i = some ch) :
    ∃ ch2, (rc_buf_reserve a n).1.chunks.get? i = some ch2
      ∧ ch2.capacity = ch.capacity ∧ ∃ t, ch2.committed = ch.committed ++ t := by
  rw [rc_buf_reserve.eq_def]
  cases hlast : a.chunks.getLast? with
  | none =>
    have hnil : a.chunks = [] := List.getLast?_eq_none_iff.mp hlast
    rw [hnil] at h
    simp at h
  | some ch0 =>
    dsimp only
    split_ifs with hfit
    · exact ⟨ch, h, rfl, [], by simp⟩
    · have hlen : i < a.chunks.length := by
        rw [List.get?_eq_getElem?] at h
        rcases List.getElem?_eq_some.mp h with ⟨hlt, _⟩
        exact hlt
      refine ⟨ch, ?_, rfl, [], by simp⟩
      show (a.chunks ++ [(⟨[], growSize a n⟩ : rc_api_buffer_chunk_t)]).get? i = some ch
      rw [List.get?_eq_getElem?, List.getElem?_append_left hlen, ← List.get?_eq_getElem?]
      exact h

theorem chunkPreserved_consume (a : rc_api_buffer_t) (w : List Char) (i : Nat)
    (ch : rc_api_buffer_chunk_t) (h : a.chunks.get? i = some ch) :
    ∃ ch2, (rc_buf_consume a w).chunks.get? i = some ch2
      ∧ ch2.capacity = ch.capacity ∧ ∃ t, ch2.committed = ch.committed ++ t := by
  rw [rc_buf_consume.eq_def]
  cases hlast : a.chunks.getLast? with
  | none => exact ⟨ch, h, rfl, [], by simp⟩
  | some ch0 =>
    dsimp only
    split_ifs with hfit
    · have hlen : i < a.chunks.length := by
        rw [List.get?_eq_getElem?] at h
        rcases List.getElem?_eq_some.mp h with ⟨hlt, _⟩
        exact hlt
      by_cases hi : i < a.chunks.length - 1
      · refine ⟨ch, ?_, rfl, [], by simp⟩
        show (a.chunks.dropLast
            ++ [(⟨ch0.committed ++ w, ch0.capacity⟩ : rc_api_buffer_chunk_t)]).get? i = some ch
        rw [List.get?_eq_getElem?,
          List.getElem?_append_left (by rw [List.length_dropLast]; omega),
          List.getElem?_dropLast, if_pos hi, ← List.get?_eq_getElem?]
        exact h
      · have hieq : i = a.chunks.length - 1 := by omega
        have hch : ch = ch0 := by
          rw [List.getLast?_eq_getElem?] at hlast
          rw [List.get?_eq_getElem?, hieq] at h
          exact Option.some.inj (h.symm.trans hlast)
        refine ⟨⟨ch0.committed ++ w, ch0.capacity⟩, ?_, by rw [hch], ⟨w, by rw [hch]⟩⟩
        show (a.chunks.dropLast
            ++ [(⟨ch0.committed ++ w, ch0.capacity⟩ : rc_api_buffer_chunk_t)]).get? i = _
        rw [List.get?_eq_getElem?,
          List.getElem?_append_right (by rw [List.length_dropLast]; omega)]
        simp [List.length_dropLast, hieq]
    · exact ⟨ch, h, rfl, [], by simp⟩

theorem chunkPreserved_op (op : ArenaOp) (a : rc_api_buffer_t) (i : Nat)
    (ch : rc_api_buffer_chunk_t) (h : a.chunks.get? i = some ch) :
    ∃ ch2, (applyArenaOp a op).chunks.get? i = some ch2
      ∧ ch2.capacity = ch.capacity ∧ ∃ t, ch2.committed = ch.committed ++ t := by
  cases op with
  | reserve n => exact chunkPreserved_reserve a n i ch h
  | consume w => exact chunkPreserved_consume a w i ch h
  | alloc n =>
    obtain ⟨ch1, h1, hc1, t1, ht1⟩ := chunkPreserved_reserve a n i ch h
    obtain ⟨ch2, h2, hc2, t2, ht2⟩ :=
      chunkPreserved_consume (rc_buf_reserve a n).1 (List.replicate n nulChar) i ch1 h1
    exact ⟨ch2, h2, hc2.trans hc1, t1 ++ t2, by rw [ht2, ht1, List.append_assoc]⟩
  | strcpy s =>
    obtain ⟨ch1, h1, hc1, t1, ht1⟩ := chunkPreserved_reserve a (s.length + 1) i ch h
    obtain ⟨ch2, h2, hc2, t2, ht2⟩ :=
      chunkPreserved_consume (rc_buf_reserve a (s.length + 1)).1 (s ++ [nulChar]) i ch1 h1
    exact ⟨ch2, h2, hc2.trans hc1, t1 ++ t2, by rw [ht2, ht1, List.append_assoc]⟩
  | strncpy s n =>
    obtain ⟨ch1, h1, hc1, t1, ht1⟩ :=
      chunkPreserved_reserve a ((s.take n).length + 1) i ch h
    obtain ⟨ch2, h2, hc2, t2, ht2⟩ :=
      chunkPreserved_consume (rc_buf_reserve a ((s.take n).length + 1)).1
        (s.take n ++ [nulChar]) i ch1 h1
    exact ⟨ch2, h2, hc2.trans hc1, t1 ++ t2, by rw [ht2, ht1, List.append_assoc]⟩

theorem readPtr_op (op : ArenaOp) (a : rc_api_buffer_t) (p : ArenaPtr) (c : Char)
    (h : readPtr a p = some c) : readPtr (applyArenaOp a op) p = some c := by
  rw [readPtr.eq_def] at h
  cases hch : a.chunks.get? p.chunk with
  | none =>
    rw [hch] at h
    exact Option.noConfusion h
  | some ch =>
    rw [hch] at h
    dsimp only at h
    obtain ⟨ch2, h2, _, t, ht⟩ := chunkPreserved_op op a p.chunk ch hch
    rw [readPtr.eq_def, h2]
    dsimp only
    have hoff : p.off < ch.committed.length := by
      rw [List.get?_eq_getElem?] at h
      rcases List.getElem?_eq_some.mp h with ⟨hlt, _⟩
      exact hlt
    rw [ht, List.get?_eq_getElem?, List.getElem?_append_left hoff, ← List.get?_eq_getElem?]
    exact h

/-- C9: arena pointer stability: over any sequence of arena operations, a
pointer to a committed byte keeps reading the same byte (no operation moves
or invalidates previously returned memory), and every existing chunk
survives every operation with the same capacity and its committed bytes
only ever extended, never rewritten. -/
theorem c9_arena_pointer_stability :
    (∀ (ops : List ArenaOp) (a : rc_api_buffer_t) (p : ArenaPtr) (c : Char),
      readPtr a p = some c → readPtr (applyArenaOps a ops) p = some c) ∧
    (∀ (ops : List ArenaOp) (a : rc_api_buffer_t) (i : Nat) (ch : rc_api_buffer_chunk_t),
      a.chunks.get? i = some ch →
      ∃ ch2, (applyArenaOps a ops).chunks.get? i = some ch2
        ∧ ch2.capacity = ch.capacity ∧ ∃ t, ch2.committed = ch.committed ++ t) := by
  constructor
  · intro ops
    induction ops with
    | nil =>
      intro a p c h
      exact h
    | cons op ops ih =>
      intro a p c h
      rw [applyArenaOps, List.foldl_cons]
      exact ih (applyArenaOp a op) p c (readPtr_op op a p c h)
  · intro ops
    induction ops with
    | nil =>
      intro a i ch h
      exact ⟨ch, h, rfl, [], by simp⟩
    | cons op ops ih =>
      intro a i ch h
      obtain ⟨ch1, h1, hc1, t1, ht1⟩ := chunkPreserved_op op a i ch h
      obtain ⟨ch2, h2, hc2, t2, ht2⟩ := ih (applyArenaOp a op) i ch1 h1
      rw [applyArenaOps, List.foldl_cons]
      exact ⟨ch2, h2, hc2.trans hc1, t1 ++ t2, by rw [ht2, ht1, List.append_assoc]⟩

/-- Closed instance of arena stability: the committed byte at the start of
the first chunk still reads back unchanged after a copy and an allocation. -/
theorem c9_arena_pointer_stability_witness :
    readPtr (applyArenaOps ⟨[⟨"hi".data, 4⟩]⟩
        [ArenaOp.strcpy ("yo".data), ArenaOp.alloc 3]) ⟨0, 0⟩ = some 'h' := by
  exact c9_arena_pointer_stability.1 [ArenaOp.strcpy ("yo".data), ArenaOp.alloc 3]
    ⟨[⟨"hi".data, 4⟩]⟩ ⟨0, 0⟩ 'h' (by decide)

end RcApi

/-! ## Proofs about the typed accessors and decode determinism -/

namespace RcApi

theorem takeWhile_until_nul (s : List Char) (h : nulChar ∉ s) :
    (s ++ [nulChar]).takeWhile (fun c => c ≠ nulChar) = s := by
  rw [List.takeWhile_append_of_pos (fun c hc => by
    simp only [ne_eq, decide_eq_true_eq]
    intro hcn
    exact h (hcn ▸ hc))]
  simp

theorem readStrAt_strcpy (a : rc_api_buffer_t) (s : List Char) (hnul : nulChar ∉ s) :
    readStrAt (rc_buf_strcpy a s).1 (rc_buf_strcpy a s).2 = s := by
  have e : rc_buf_strcpy a s
      = (rc_buf_consume (rc_buf_reserve a (s.length + 1)).1 (s ++ [nulChar]),
         (rc_buf_reserve a (s.length + 1)).2) := rfl
  rw [e]
  rw [rc_buf_reserve.eq_def]
  cases hlast : a.chunks.getLast? with
  | none =>
    dsimp only
    rw [rc_buf_consume.eq_def]
    have hlast2 : (⟨[(⟨[], growSize a (s.length + 1)⟩ : rc_api_buffer_chunk_t)]⟩
        : rc_api_buffer_t).chunks.getLast? = some ⟨[], growSize a (s.length + 1)⟩ := rfl
    rw [hlast2]
    dsimp only
    rw [if_pos (by
      show [].length + (s ++ [nulChar]).length ≤ growSize a (s.length + 1)
      have hg : s.length + 1 ≤ growSize a (s.length + 1) := by
        rw [growSize, hlast]
        exact Nat.le_max_left _ _
      simp
      omega)]
    rw [readStrAt.eq_def]
    dsimp only
    simp only [List.dropLast_single, List.nil_append, List.get?_cons_zero, List.drop_zero]
    exact takeWhile_until_nul s hnul
  | some ch =>
    dsimp only
    split_ifs with hfit
    · -- the string fits in the current chunk
      rw [rc_buf_consume.eq_def, hlast]
      dsimp only
      rw [if_pos (by
        simp only [List.length_append, List.length_cons, List.length_nil]
        omega)]
      rw [readStrAt.eq_def]
      dsimp only
      have hne : a.chunks ≠ [] := by
        intro hc
        rw [hc] at hlast
        exact Option.noConfusion hlast
      have hlen1 : 1 ≤ a.chunks.length := by
        cases hc : a.chunks with
        | nil => exact absurd hc hne
        | cons x xs => simp [hc]
      have hget : (a.chunks.dropLast
          ++ [(⟨ch.committed ++ (s ++ [nulChar]), ch.capacity⟩ : rc_api_buffer_chunk_t)]).get?
            (a.chunks.length - 1)
          = some ⟨ch.committed ++ (s ++ [nulChar]), ch.capacity⟩ := by
        rw [List.get?_eq_getElem?,
          List.getElem?_append_right (by rw [List.length_dropLast])]
        simp [List.length_dropLast]
      rw [hget]
      dsimp only
      rw [List.drop_left' (by rfl), takeWhile_until_nul s hnul]
    · -- a fresh chunk is grown
      rw [rc_buf_consume.eq_def]
      have hlast2 : (⟨a.chunks ++ [(⟨[], growSize a (s.length + 1)⟩ : rc_api_buffer_chunk_t)]⟩
          : rc_api_buffer_t).chunks.getLast? = some ⟨[], growSize a (s.length + 1)⟩ := by
        show (a.chunks ++ [(⟨[], growSize a (s.length + 1)⟩ : rc_api_buffer_chunk_t)]).getLast?
            = _
        rw [List.getLast?_concat]
      rw [hlast2]
      dsimp only
      rw [if_pos (by
        show [].length + (s ++ [nulChar]).length ≤ growSize a (s.length + 1)
        have hg : s.length + 1 ≤ growSize a (s.length + 1) := by
          rw [growSize, hlast]
          exact Nat.le_max_left _ _
        simp
        omega)]
      rw [readStrAt.eq_def]
      dsimp only
      have hget : ((a.chunks
            ++ [(⟨[], growSize a (s.length + 1)⟩ : rc_api_buffer_chunk_t)]).dropLast
          ++ [(⟨[] ++ (s ++ [nulChar]), growSize a (s.length + 1)⟩ : rc_api_buffer_chunk_t)]).get?
            a.chunks.length
          = some ⟨[] ++ (s ++ [nulChar]), growSize a (s.length + 1)⟩ := by
        rw [List.dropLast_concat, List.get?_eq_getElem?,
          List.getElem?_append_right (by omega)]
        simp
      rw [hget]
      dsimp only
      simp only [List.nil_append, List.drop_zero]
      exact takeWhile_until_nul s hnul

/-- C8: decoding is deterministic in the two-run sense.  Decoding the same
raw response body and status code into two independently created envelopes —
two arbitrary, unrelated arenas — yields field-for-field identical observable
output: the same decode status, the same error message read back through each
envelope's own arena pointer, and the same located endpoint field spans.  The
hypothesis records that the parsed error message holds no embedded NUL byte
(on the wire it is NUL-terminated, so an embedded NUL cannot occur). -/
theorem c8_decode_deterministic (sr : rc_api_server_response_t) (fields : FieldTable)
    (a1 a2 : rc_api_buffer_t)
    (hnul : ∀ msg, (rc_json_parse_server_response sr fields).2.1.error_message = some msg →
      nulChar ∉ msg) :
    observeResponse (rc_api_process_response a1 sr fields)
      = observeResponse (rc_api_process_response a2 sr fields) := by
  rw [rc_api_process_response.eq_def, rc_api_process_response.eq_def]
  cases hp : rc_json_parse_server_response sr fields with
  | mk st rest =>
    cases rest with
    | mk resp fs =>
      cases hmsg : resp.error_message with
      | none => dsimp only; rw [hmsg]; rfl
      | some msg =>
        have hin : nulChar ∉ msg := hnul msg (by rw [hp]; exact hmsg)
        dsimp only
        rw [hmsg]
        dsimp only [observeResponse]
        simp only [Option.map_some']
        rw [readStrAt_strcpy a1 msg hin, readStrAt_strcpy a2 msg hin]

/-- Witness for C8: the discriminated-failure body decoded into two distinct
arenas (one empty, one already holding a committed chunk) observes
identically. -/
theorem c8_decode_deterministic_witness :
    observeResponse (rc_api_process_response ⟨[]⟩ ⟨c1Body, 200⟩ [])
      = observeResponse (rc_api_process_response ⟨[⟨"x".data, 8⟩]⟩ ⟨c1Body, 200⟩ []) :=
  c8_decode_deterministic ⟨c1Body, 200⟩ [] ⟨[]⟩ ⟨[⟨"x".data, 8⟩]⟩ (by
    intro msg hmsg
    have hM : (rc_json_parse_server_response ⟨c1Body, 200⟩ []).2.1.error_message
        = some ("Invalid API Token".data) := by decide
    rw [hM] at hmsg
    injection hmsg with h
    rw [← h]
    decide)

/-- C7: uniform failure semantics of the typed accessors, for every field and
every accessor type.  Each `rc_json_get_required_*` accessor, when the field's
value cannot be produced (the span is absent or does not convert — wrong type
or malformed), stamps the message `<field name> is missing or invalid` into
the enclosing response envelope and returns the failure code `false`; on
success it returns the converted value, the untouched envelope, and `true`.
Each `rc_json_get_optional_*` accessor never touches an envelope and never
fails: it is exactly value-or-supplied-default. -/
theorem c7_required_optional_accessors
    (response : rc_api_response_t) (field : List Char × Option (List Char))
    (dn : Int) (du : Nat) (db : Bool) (ds : List Char) :
    (rc_json_get_num field = none →
      rc_json_get_required_num response field
        = (0, ⟨response.succeeded, some (field.1 ++ " is missing or invalid".data)⟩, false))
    ∧ (rc_json_get_unum field = none →
      rc_json_get_required_unum response field
        = (0, ⟨response.succeeded, some (field.1 ++ " is missing or invalid".data)⟩, false))
    ∧ (rc_json_get_bool field = none →
      rc_json_get_required_bool response field
        = (false, ⟨response.succeeded, some (field.1 ++ " is missing or invalid".data)⟩, false))
    ∧ (rc_json_get_string field = none →
      rc_json_get_required_string response field
        = ([], ⟨response.succeeded, some (field.1 ++ " is missing or invalid".data)⟩, false))
    ∧ (rc_json_get_datetime field = none →
      rc_json_get_required_datetime response field
        = (0, ⟨response.succeeded, some (field.1 ++ " is missing or invalid".data)⟩, false))
    ∧ (∀ n, rc_json_get_num field = some n →
      rc_json_get_required_num response field = (n, response, true))
    ∧ (∀ n, rc_json_get_unum field = some n →
      rc_json_get_required_unum response field = (n, response, true))
    ∧ (∀ b, rc_json_get_bool field = some b →
      rc_json_get_required_bool response field = (b, response, true))
    ∧ (∀ s, rc_json_get_string field = some s →
      rc_json_get_required_string response field = (s, response, true))
    ∧ (∀ n, rc_json_get_datetime field = some n →
      rc_json_get_required_datetime response field = (n, response, true))
    ∧ rc_json_get_optional_num field dn = (rc_json_get_num field).getD dn
    ∧ rc_json_get_optional_unum field du = (rc_json_get_unum field).getD du
    ∧ rc_json_get_optional_bool field db = (rc_json_get_bool field).getD db
    ∧ rc_json_get_optional_string field ds = (rc_json_get_string field).getD ds := by
  refine ⟨?_, ?_, ?_, ?_, ?_, ?_, ?_, ?_, ?_, ?_, ?_, ?_, ?_, ?_⟩
  · intro h
    rw [rc_json_get_required_num.eq_def, h]
    rfl
  · intro h
    rw [rc_json_get_required_unum.eq_def, h]
    rfl
  · intro h
    rw [rc_json_get_required_bool.eq_def, h]
    rfl
  · intro h
    rw [rc_json_get_required_string.eq_def, h]
    rfl
  · intro h
    rw [rc_json_get_required_datetime.eq_def, h]
    rfl
  · intro n h
    rw [rc_json_get_required_num.eq_def, h]
  · intro n h
    rw [rc_json_get_required_unum.eq_def, h]
  · intro b h
    rw [rc_json_get_required_bool.eq_def, h]
  · intro s h
    rw [rc_json_get_required_string.eq_def, h]
  · intro n h
    rw [rc_json_get_required_datetime.eq_def, h]
  · cases h : rc_json_get_num field <;> rw [rc_json_get_optional_num.eq_def, h] <;> rfl
  · cases h : rc_json_get_unum field <;> rw [rc_json_get_optional_unum.eq_def, h] <;> rfl
  · cases h : rc_json_get_bool field <;> rw [rc_json_get_optional_bool.eq_def, h] <;> rfl
  · cases h : rc_json_get_string field <;> rw [rc_json_get_optional_string.eq_def, h] <;> rfl

/-- Witness for C7: the field `Score` with no located span fails the required
accessor with the stamped message, succeeds when the span holds `1500`, and
the optional accessor resolves the absent span to the supplied default. -/
theorem c7_required_optional_accessors_witness :
    rc_json_get_required_num ⟨1, none⟩ ("Score".data, none)
      = (0, ⟨1, some ("Score".data ++ " is missing or invalid".data)⟩, false)
    ∧ rc_json_get_required_num ⟨1, none⟩ ("Score".data, some "1500".data)
      = (1500, ⟨1, none⟩, true)
    ∧ rc_json_get_optional_unum ("Score".data, none) 7 = 7 := by
  refine ⟨?_, ?_, ?_⟩
  · exact (c7_required_optional_accessors ⟨1, none⟩ ("Score".data, none)
      0 0 false []).1 (by decide)
  · exact (c7_required_optional_accessors ⟨1, none⟩ ("Score".data, some "1500".data)
      0 0 false []).2.2.2.2.2.1 1500 (by decide)
  · have h := (c7_required_optional_accessors ⟨1, none⟩ ("Score".data, none)
      0 7 false []).2.2.2.2.2.2.2.2.2.2.2.1
    rw [h]
    rfl

end RcApi
